import Mathlib

/-!
# crwl: a shallow embedding of the crawler's graph, counters and coordinator

The Go sources embedded here are `graph/graph.go`, `stats/stats.go`,
`page/page.go`, `page/set.go` and `crawler/crawler.go`.

Modelling conventions
* A Go `map[K]V` is an association list with at most one entry per key
  (`mapGet`, `mapSet`); a lookup of a missing key gives `none`, the zero value.
* A `*Node` is the `Node` it points to: nodes are never mutated after
  creation, so a pointer is determined by the value it points to.
* A method with a pointer receiver that mutates it takes the old value and
  returns the new one; a returned `error` is an `Option String`, `none` for
  `nil`.
* The `int64` counters of `Stats` are integers; the counts stay far below
  `2^63`, one unit per recorded operation.
* The mutexes and atomics make every method body one indivisible step, which
  is what a definition here is.
* A parsed document is the list of the `href` attributes of its anchors, in
  document order, `none` for an anchor without one; `netUrl.Parse` followed by
  `.Host` is a parameter `parse` of the functions that use it.
* A string is a list of characters; `/` is one byte, so that cutting the last
  byte of a string that ends with `/` is cutting its last character.
-/

namespace Crwl

/-! ## Go maps -/

/-- Map lookup `m[k]`: the value stored under `k`, if any. -/
def mapGet {K V : Type} [DecidableEq K] : List (K × V) → K → Option V
  | [], _ => none
  | (k', v) :: rest, k => if k' = k then some v else mapGet rest k

/-- Map assignment `m[k] = v`: overwrites the entry of `k`, or adds one. -/
def mapSet {K V : Type} [DecidableEq K] : List (K × V) → K → V → List (K × V)
  | [], k, v => [(k, v)]
  | (k', v') :: rest, k, v =>
    if k' = k then (k, v) :: rest else (k', v') :: mapSet rest k v

/-- The keys of a map, in the order in which they were first assigned. -/
def mapKeys {K V : Type} (m : List (K × V)) : List K := m.map Prod.fst

/-! ## graph/graph.go -/

/-- The `Node` struct: a visited URL. -/
structure Node where
  url : String
  deriving DecidableEq, Repr

/-- The `Graph` struct: `nodes map[string]*Node` and `edges map[Node][]*Node`. -/
structure Graph where
  nodes : List (String × Node)
  edges : List (Node × List Node)
  deriving DecidableEq, Repr

/-- Function `NewGraph`: two empty maps. -/
def NewGraph : Graph := { nodes := [], edges := [] }

/-- Method `Graph.HasNode`: `_, exists := g.nodes[url]; return exists`. -/
def Graph.HasNode (g : Graph) (url : String) : Bool :=
  (mapGet g.nodes url).isSome

/-- Method `Graph.AddNode`: returns at once when the node exists, else stores
`&Node{url}` under `url`. -/
def Graph.AddNode (g : Graph) (url : String) : Graph :=
  if g.HasNode url then g
  else { g with nodes := mapSet g.nodes url { url := url } }

/-- Method `Graph.AddEdge`: looks both nodes up, returns an error when the start node
is `nil`, then when the end node is `nil`, and otherwise appends the end node
to `g.edges[*startNode]`. The result is the graph afterwards and the error. -/
def Graph.AddEdge (g : Graph) (startURL endURL : String) : Graph × Option String :=
  match mapGet g.nodes startURL with
  | none => (g, some ("failed to add edge, no node found for " ++ startURL))
  | some startNode =>
    match mapGet g.nodes endURL with
    | none => (g, some ("failed to add edge no node found for " ++ endURL))
    | some endNode =>
      ({ g with edges :=
          mapSet g.edges startNode ((mapGet g.edges startNode).getD [] ++ [endNode]) },
        none)

/-- The URLs that `g.edges` records as linked from `url`, in the order in
which the edges were added (the slice `g.edges[Node{url}]`). -/
def Graph.adjacent (g : Graph) (url : String) : List String :=
  ((mapGet g.edges { url := url }).getD []).map Node.url

/-- A call on a graph: the two mutating methods of `Graph`. -/
inductive GraphOp where
  | addNode (url : String)
  | addEdge (startURL endURL : String)
  deriving DecidableEq, Repr

/-- Performs one call; the error of `AddEdge` is dropped, as the coordinator
does. -/
def Graph.apply (g : Graph) : GraphOp → Graph
  | .addNode url => g.AddNode url
  | .addEdge s e => (g.AddEdge s e).1

/-- Performs a sequence of calls, first to last. -/
def Graph.run (g : Graph) (ops : List GraphOp) : Graph :=
  ops.foldl Graph.apply g

/-! ## stats/stats.go -/

/-- The `Stats` struct. A `time.Time` is the number of nanoseconds since the
zero time, so that `IsZero` is `= 0`; a `time.Duration` is a number of
nanoseconds. -/
structure Stats where
  total : Int
  pending : Int
  completed : Int
  failures : Int
  startTime : Int
  duration : Int
  deriving DecidableEq, Repr

/-- Function `NewStats`: every counter zero, the time fields at their zero values. -/
def NewStats : Stats :=
  { total := 0, pending := 0, completed := 0, failures := 0, startTime := 0, duration := 0 }

/-- Method `Stats.RecordNewOperation`: adds 1 to `pending` and to `total`. -/
def Stats.RecordNewOperation (s : Stats) : Stats :=
  { s with pending := s.pending + 1, total := s.total + 1 }

/-- Method `Stats.RecordOperationFailure`: adds -1 to `pending` and 1 to `failures`. -/
def Stats.RecordOperationFailure (s : Stats) : Stats :=
  { s with pending := s.pending + -1, failures := s.failures + 1 }

/-- Method `Stats.RecordOperationCompletion`: adds -1 to `pending` and 1 to
`completed`. -/
def Stats.RecordOperationCompletion (s : Stats) : Stats :=
  { s with pending := s.pending + -1, completed := s.completed + 1 }

/-- Method `Stats.RecordStartTime`, with the reading `now` of `time.Now()`. -/
def Stats.RecordStartTime (s : Stats) (now : Int) : Stats :=
  if s.startTime = 0 then { s with startTime := now } else s

/-- Method `Stats.RecordTotalDuration`, with the reading `now` of the clock that
`time.Since` takes. -/
def Stats.RecordTotalDuration (s : Stats) (now : Int) : Stats :=
  if s.startTime = 0 then s
  else if s.duration = 0 then { s with duration := now - s.startTime }
  else s

/-- Method `Stats.Total`: reads the counter. -/
def Stats.Total (s : Stats) : Int := s.total

/-- Method `Stats.Pending`: reads the counter. -/
def Stats.Pending (s : Stats) : Int := s.pending

/-- Method `Stats.Failures`: reads the counter. -/
def Stats.Failures (s : Stats) : Int := s.failures

/-- Method `Stats.Completed`: reads the counter. -/
def Stats.Completed (s : Stats) : Int := s.completed

/-- Method `Stats.Duration`: reads the field. -/
def Stats.Duration (s : Stats) : Int := s.duration

/-- A call on the counters: the three recording methods. -/
inductive StatsOp where
  | newOperation
  | completion
  | failure
  deriving DecidableEq, Repr

/-- Performs one recording call. -/
def Stats.apply (s : Stats) : StatsOp → Stats
  | .newOperation => s.RecordNewOperation
  | .completion => s.RecordOperationCompletion
  | .failure => s.RecordOperationFailure

/-- Performs a sequence of recording calls, first to last. The calls are
atomic additions, so a concurrent execution is one of its interleavings. -/
def Stats.run (s : Stats) (ops : List StatsOp) : Stats :=
  ops.foldl Stats.apply s

/-! ## page/page.go -/

/-- The `Page` struct, without the parsed document: its links are the two
lists that `fetchLinks` has filled in. -/
structure Page where
  ParentURL : String
  URL : String
  AllURLs : List String
  InternalURLs : List String
  deriving DecidableEq, Repr

/-- Method `Page.Print`: the text written to the log writer. -/
def Page.Print (p : Page) : String :=
  p.AllURLs.foldl (fun message url => message ++ ("\t ✨ " ++ url ++ " \n"))
    ("✨ Extracted links in URL: " ++ p.URL ++ " \n") ++ "\n"

/-! ## crawler/crawler.go -/

/-- The `Crawler` struct. `LogWriter` holds what has been written to it, one
entry per write; `wg` is the counter of the wait group; the fetcher and the
error channel are part of the pipeline below. -/
structure Crawler where
  URL : String
  Workers : Int
  LogWriter : List String
  Graph : Graph
  Stats : Stats
  wg : Int
  deriving DecidableEq, Repr

/-- Function `NewCrawler`: drops one trailing slash of `url` and starts with an empty
graph, zeroed counters and a fresh wait group. The timeout only configures the
HTTP fetcher. -/
def NewCrawler (url : String) (workers : Int) (_timeout : Int) : Crawler :=
  { URL := if url.data.getLast? = some '/' then String.mk url.data.dropLast else url
    Workers := workers
    LogWriter := []
    Graph := NewGraph
    Stats := NewStats
    wg := 0 }

/-- A crawl in progress: the crawler and `urlChannel`, kept as the list of
all URLs sent to it so far, in the order in which the sends were issued. -/
structure Run where
  c : Crawler
  urlChannel : List String
  deriving DecidableEq, Repr

/-- The body of the inner loop of `listenForPages` for one internal link `url`
of the page `pageURL`: a visited link only gets an edge; a new link gets a node
and an edge, is counted, and is sent to the URL channel. The error of `AddEdge`
is not looked at. -/
def Run.link (pageURL : String) (r : Run) (url : String) : Run :=
  if r.c.Graph.HasNode url then
    { r with c := { r.c with Graph := (r.c.Graph.AddEdge pageURL url).1 } }
  else
    { c := { r.c with
          Graph := ((r.c.Graph.AddNode url).AddEdge pageURL url).1
          wg := r.c.wg + 1
          Stats := r.c.Stats.RecordNewOperation }
      urlChannel := r.urlChannel ++ [url] }

/-- One iteration of the outer loop of `listenForPages`: the coordinator
handles every internal link of the page, prints the page, records the
completion and calls `wg.Done()`. -/
def Run.listenForPages (r : Run) (p : Page) : Run :=
  let r1 := p.InternalURLs.foldl (Run.link p.URL) r
  { r1 with c := { r1.c with
      LogWriter := r1.c.LogWriter ++ [p.Print]
      Stats := r1.c.Stats.RecordOperationCompletion
      wg := r1.c.wg - 1 } }

/-- One iteration of the loop of `listenForErrors`: the error is logged, the
failure recorded and `wg.Done()` called. -/
def Run.listenForErrors (r : Run) (err : String) : Run :=
  { r with c := { r.c with
      LogWriter := r.c.LogWriter ++ ["🥞 " ++ err ++ "\n"]
      Stats := r.c.Stats.RecordOperationFailure
      wg := r.c.wg - 1 } }

/-- Method `Crawler.Crawl` up to `wg.Wait()`: the seed becomes a node, is counted and
is sent to the URL channel, and the start time is recorded at the clock
reading `now`. -/
def Crawler.Crawl (c : Crawler) (now : Int) : Run :=
  { c := { c with
        Graph := c.Graph.AddNode c.URL
        wg := c.wg + 1
        Stats := (c.Stats.RecordNewOperation).RecordStartTime now }
    urlChannel := [c.URL] }

/-- Method `Crawler.Crawl` after `wg.Wait()` has returned: the duration is recorded
at the clock reading `now`. -/
def Run.finish (r : Run) (now : Int) : Run :=
  { r with c := { r.c with Stats := r.c.Stats.RecordTotalDuration now } }

/-- What reaches the two listeners: a parsed page on the page channel, or an
error of a fetch or of a parse on the error channel. -/
inductive Event where
  | page (p : Page)
  | error (err : String)
  deriving DecidableEq, Repr

/-- The listener that the event belongs to handles it. -/
def Run.handle (r : Run) : Event → Run
  | .page p => r.listenForPages p
  | .error err => r.listenForErrors err

/-- Handles a sequence of events one at a time, first to last. -/
def Run.events (r : Run) (evs : List Event) : Run :=
  evs.foldl Run.handle r

/-- The run of `Crawl` on the crawler `NewCrawler(url, workers, timeout)` once
the two listeners have handled the events `evs`. -/
def crawl (url : String) (workers timeout now : Int) (evs : List Event) : Run :=
  ((NewCrawler url workers timeout).Crawl now).events evs

/-! ## The crawl of a site -/

/-- What the fetch of a URL leads to: `Fetch` returns an error, or the body
is parsed into a page with these links. -/
inductive Response where
  | failure (err : String)
  | page (allURLs internalURLs : List String)
  deriving DecidableEq, Repr

/-- A site: the response to every URL. -/
abbrev Site := String → Response

/-- Whether the fetch of `url` succeeds. -/
def Site.ok (site : Site) (url : String) : Bool :=
  match site url with
  | .page _ _ => true
  | .failure _ => false

/-- The internal links of the page at `url`; none when the fetch fails. -/
def Site.links (site : Site) (url : String) : List String :=
  match site url with
  | .page _ internalURLs => internalURLs
  | .failure _ => []

/-- The pipeline of a crawl: the run, and the URLs taken from the URL channel
whose page or error has been handled. -/
structure Pipeline where
  run : Run
  resolved : List String
  deriving DecidableEq, Repr

/-- One URL goes through the pipeline: a worker of `listenForURLs` takes a URL
that was sent and is not yet resolved, fetches it, and either reports
`failed to fetch url: err` on the error channel, or the parser builds
`NewPage(c.URL, url, document)` and the coordinator handles it. Nothing
happens without a worker, or for a URL that is not waiting. -/
def Pipeline.deliver (site : Site) (s : Pipeline) (url : String) : Option Pipeline :=
  if 0 < s.run.c.Workers ∧ s.resolved.count url < s.run.urlChannel.count url then
    match site url with
    | .failure err =>
      some { run := s.run.listenForErrors ("failed to fetch " ++ url ++ ": " ++ err)
             resolved := s.resolved ++ [url] }
    | .page allURLs internalURLs =>
      some { run := s.run.listenForPages
               { ParentURL := s.run.c.URL, URL := url
                 AllURLs := allURLs, InternalURLs := internalURLs }
             resolved := s.resolved ++ [url] }
  else none

/-- The URLs go through the pipeline in the order of `schedule`; `none` when
the schedule names a URL that is not waiting at that point. -/
def Pipeline.schedule (site : Site) : Pipeline → List String → Option Pipeline
  | s, [] => some s
  | s, url :: rest =>
    match s.deliver site url with
    | none => none
    | some s1 => Pipeline.schedule site s1 rest

/-- The pipeline when `Crawl` has sent the seed and waits. -/
def Crawler.start (c : Crawler) (now : Int) : Pipeline :=
  { run := c.Crawl now, resolved := [] }

/-- Whether `wg.Wait()` returns: the counter of the wait group is zero. -/
def Pipeline.finished (s : Pipeline) : Bool := s.run.c.wg = 0

/-- The URLs reachable from the seed through internal links of pages whose
fetch succeeds. -/
inductive Reach (site : Site) (seed : String) : String → Prop where
  | seed : Reach site seed seed
  | link {u v : String} : Reach site seed u → v ∈ site.links u → Reach site seed v

/-- A page that links to `/loans` only. -/
def cardsPage : Page :=
  { ParentURL := "https://example.com", URL := "https://example.com/cards"
    AllURLs := ["https://example.com/loans"]
    InternalURLs := ["https://example.com/loans"] }

/-- A seed page that links to `/cards` and `/about`. -/
def homePage : Page :=
  { ParentURL := "https://example.com", URL := "https://example.com"
    AllURLs := ["https://example.com/cards", "https://example.com/about"]
    InternalURLs := ["https://example.com/cards", "https://example.com/about"] }

/-- A page that links to `/loans` and to `/cards`. -/
def aboutPage : Page :=
  { ParentURL := "https://example.com", URL := "https://example.com/about"
    AllURLs := ["https://example.com/loans", "https://example.com/cards"]
    InternalURLs := ["https://example.com/loans", "https://example.com/cards"] }

/-- Two pages that link to the same new URL `/loans`; the first one lists it
twice and also links back to the seed. -/
def sharedLinkEvents : List Event :=
  [Event.page
      { ParentURL := "https://example.com", URL := "https://example.com"
        AllURLs := ["https://example.com/loans", "https://example.com/cards"]
        InternalURLs := ["https://example.com/loans", "https://example.com/cards",
          "https://example.com/loans", "https://example.com"] },
    Event.page cardsPage]

/-- The seed page links to `/loans`, and the fetch of `/loans` fails. -/
def failedLinkEvents : List Event :=
  [Event.page
      { ParentURL := "https://example.com", URL := "https://example.com"
        AllURLs := ["https://example.com/loans"]
        InternalURLs := ["https://example.com/loans"] },
    Event.error "failed to fetch https://example.com/loans: 404"]

/-- A site shaped like the mock cache of `TestCrawl`: three pages that link to
one another; every other URL is not in the cache, so its fetch fails. -/
def mockSite : Site := fun url =>
  if url = "https://example.com" then
    Response.page
      ["https://example.com/loans", "https://example.com/shared-tabs", "https://other.org"]
      ["https://example.com/loans", "https://example.com/shared-tabs"]
  else if url = "https://example.com/loans" then
    Response.page ["https://example.com", "https://example.com/shared-tabs"]
      ["https://example.com", "https://example.com/shared-tabs"]
  else if url = "https://example.com/shared-tabs" then
    Response.page ["https://example.com"] ["https://example.com"]
  else Response.failure (url ++ " not found in mock cache")

/-- The crawl of `TestCrawl` on `mockSite`, with the three pages going through
the pipeline in the order in which they are sent. -/
def mockCrawl : Option Pipeline :=
  Pipeline.schedule mockSite ((NewCrawler "https://example.com" 10 20).start 1)
    ["https://example.com", "https://example.com/loans", "https://example.com/shared-tabs"]

/-! ## page/page.go and page/set.go: the links of a page -/

/-- Whether `strings.HasPrefix(s, "/")` holds. -/
def startsWithSlash (s : String) : Bool := s.data.head? = some '/'

/-- Whether `strings.HasSuffix(s, "/")` holds. -/
def endsWithSlash (s : String) : Bool := s.data.getLast? = some '/'

/-- The slice `s[:len(s)-1]` of a string that ends with the one-byte `/`. -/
def dropLastByte (s : String) : String := String.mk s.data.dropLast

/-- Method `Page.normalizeURL`: a URL that starts with `/` is put behind the
parent URL; then one trailing `/`, if there is one, is cut off. -/
def Page.normalizeURL (p : Page) (url : String) : String :=
  let url := if startsWithSlash url then p.ParentURL ++ url else url
  if endsWithSlash url then dropLastByte url else url

/-- Method `Page.isURLSameDomainAsParent`: the result and the error. The
function `parse` stands for `netUrl.Parse` followed by the field `Host`: it
gives the host of a URL, or the error of the parse. -/
def Page.isURLSameDomainAsParent (parse : String → Except String String) (p : Page)
    (url : String) : Bool × Option String :=
  match parse p.ParentURL with
  | .error err => (false, some err)
  | .ok parentHost =>
    match parse url with
    | .error err => (false, some err)
    | .ok host => if parentHost ≠ host then (false, none) else (true, none)

/-- The `Set` struct of `page/set.go`, a `map[string]struct{}`. -/
structure StringSet where
  data : List (String × Unit)
  deriving DecidableEq, Repr

/-- Function `NewSet`: the empty set. -/
def NewSet : StringSet := { data := [] }

/-- Method `Set.Add`: `s.data[key] = exists`. -/
def StringSet.Add (s : StringSet) (key : String) : StringSet :=
  { data := mapSet s.data key () }

/-- Method `Set.Has`: `_, ok := s.data[key]; return ok`. -/
def StringSet.Has (s : StringSet) (key : String) : Bool :=
  (mapGet s.data key).isSome

/-- The local variables of `fetchLinks`. -/
structure Links where
  allURLs : List String
  internalURLs : List String
  allURLsCache : StringSet
  internalURLsCache : StringSet
  deriving DecidableEq, Repr

/-- The function that `fetchLinks` runs on one anchor, `href` being the result
of `s.Attr("href")` (`none` when the attribute does not exist): the normalized
URL is appended to `allURLs` unless the cache has it; when the domain check
gives an error or `false` the anchor is done; else the URL is appended to
`internalURLs` unless that cache has it. -/
def Page.eachAnchor (parse : String → Except String String) (p : Page) (st : Links)
    (href : Option String) : Links :=
  match href with
  | none => st
  | some raw =>
    let url := p.normalizeURL raw
    let st1 :=
      if !st.allURLsCache.Has url then
        { st with allURLs := st.allURLs ++ [url], allURLsCache := st.allURLsCache.Add url }
      else st
    match p.isURLSameDomainAsParent parse url with
    | (_, some _) => st1
    | (false, none) => st1
    | (true, none) =>
      if !st1.internalURLsCache.Has url then
        { st1 with
          internalURLs := st1.internalURLs ++ [url]
          internalURLsCache := st1.internalURLsCache.Add url }
      else st1

/-- Method `Page.fetchLinks` on a document whose anchors, in document order,
have the `href` attributes `anchors`. -/
def Page.fetchLinks (parse : String → Except String String) (p : Page)
    (anchors : List (Option String)) : Page :=
  let st := anchors.foldl (p.eachAnchor parse)
    { allURLs := [], internalURLs := [], allURLsCache := NewSet, internalURLsCache := NewSet }
  { p with AllURLs := st.allURLs, InternalURLs := st.internalURLs }

/-- Function `NewPage`, the document being given by the `href` attributes of
its anchors. -/
def NewPage (parse : String → Except String String) (parentURL URL : String)
    (anchors : List (Option String)) : Page :=
  Page.fetchLinks parse
    { ParentURL := parentURL, URL := URL, AllURLs := [], InternalURLs := [] } anchors

/-- The normalized URLs of the anchors that have an `href`, in document
order. -/
def Page.normalized (p : Page) (anchors : List (Option String)) : List String :=
  (anchors.filterMap id).map p.normalizeURL

/-- Whether the domain check classifies `url` as internal: it returns `true`
and no error. -/
def Page.internal (parse : String → Except String String) (p : Page) (url : String) : Bool :=
  p.isURLSameDomainAsParent parse url = (true, none)

/-- Appends `x` to `acc` unless `acc` has it: what the loop of `fetchLinks`
does to a list and its cache. -/
def pushNew (acc : List String) (x : String) : List String :=
  if x ∈ acc then acc else acc ++ [x]

/-- Specification of an ordered-unique list: every distinct element of `l`
once, in the order of the first occurrences. -/
def firstOccurrences : List String → List String
  | [] => []
  | a :: rest => a :: (firstOccurrences rest).filter (fun b => b ≠ a)

/-- A host parser for URLs of the form `scheme://host/path`, on which it agrees
with `net/url`: the part before `://` is skipped. -/
def afterScheme : List Char → Option (List Char)
  | [] => none
  | ':' :: '/' :: '/' :: rest => some rest
  | _ :: rest => afterScheme rest

/-- The host of a URL of the form `scheme://host/path`: what stands between
`://` and the next `/`, `?` or `#`; a string without `://` has the empty host,
as a path has for `net/url`. The parse never fails. -/
def simpleHost (url : String) : Except String String :=
  match afterScheme url.data with
  | none => .ok ""
  | some rest => .ok (String.mk (rest.takeWhile (fun c => c ≠ '/' ∧ c ≠ '?' ∧ c ≠ '#')))

/-- The anchors of a page: two relative links, one of them twice, a link with
a trailing slash, a link to another site, an anchor without `href`, and a link
to the same host over `http`. -/
def exampleAnchors : List (Option String) :=
  [some "/loans", some "/cards/", none, some "https://other.org/about", some "/loans",
    some "http://example.com/help"]

/-! ## The errors of the coordinator's `AddEdge` calls -/

/-- The error that the `AddEdge` call of the loop body returns for the link
`url` of the page `pageURL`; the loop body drops it. -/
def Run.linkError (pageURL : String) (r : Run) (url : String) : Option String :=
  if r.c.Graph.HasNode url then (r.c.Graph.AddEdge pageURL url).2
  else ((r.c.Graph.AddNode url).AddEdge pageURL url).2

/-- The errors of the `AddEdge` calls that the coordinator makes for the links
of one page, in order. -/
def Run.linkErrors (pageURL : String) : Run → List String → List (Option String)
  | _, [] => []
  | r, url :: rest => r.linkError pageURL url :: Run.linkErrors pageURL (r.link pageURL url) rest

/-- What has been written to the log writer, as one text. -/
def Crawler.output (c : Crawler) : String := String.join c.LogWriter

/-- The crawl of `TestCrawlError`: the seed is not in the mock cache. -/
def mockCrawlError : Option Pipeline :=
  Pipeline.schedule mockSite ((NewCrawler "https://test.com" 10 20).start 1)
    ["https://test.com"]

/-! ## Predicates used in the statements -/

/-- Every entry of `g.nodes` holds the node of its key, and every recorded
edge runs between two nodes of the graph. -/
def Graph.Sound (g : Graph) : Prop :=
  (∀ k n, mapGet g.nodes k = some n → n = { url := k }) ∧
  (∀ source targets, (source, targets) ∈ g.edges →
    g.HasNode source.url = true ∧ ∀ t ∈ targets, g.HasNode t.url = true)

/-- The bookkeeping of the coordinator: the URLs sent are the keys of the node
map, in the same order and without repetition; the wait group counts the
pending operations; and the counters add up. -/
structure Run.Inv (r : Run) : Prop where
  keys : mapKeys r.c.Graph.nodes = r.urlChannel
  nodup : r.urlChannel.Nodup
  wg : r.c.wg = r.c.Stats.pending
  pending : r.c.Stats.pending = r.c.Stats.total - r.c.Stats.completed - r.c.Stats.failures
  total : r.c.Stats.total = r.urlChannel.length
  sound : r.c.Graph.Sound

/-- The bookkeeping of the pipeline on `site` with seed `seed`: the resolved
URLs are distinct URLs that were sent; the two outcome counters count them;
every URL sent is reachable; and every internal link of a resolved URL was
sent. -/
structure Pipeline.Inv (site : Site) (seed : String) (s : Pipeline) : Prop where
  run : s.run.Inv
  url : s.run.c.URL = seed
  resolvedNodup : s.resolved.Nodup
  resolvedSent : ∀ u ∈ s.resolved, u ∈ s.run.urlChannel
  completed :
    s.run.c.Stats.completed = ((s.resolved.filter (fun u => site.ok u)).length : Int)
  failures :
    s.run.c.Stats.failures = ((s.resolved.filter (fun u => !site.ok u)).length : Int)
  seedSent : seed ∈ s.run.urlChannel
  reach : ∀ u ∈ s.run.urlChannel, Reach site seed u
  closed : ∀ u ∈ s.resolved, ∀ v ∈ site.links u, v ∈ s.run.urlChannel

/-- The caches of `fetchLinks` hold exactly the elements of their lists. -/
def Links.Coherent (st : Links) : Prop :=
  (∀ x, st.allURLsCache.Has x = true ↔ x ∈ st.allURLs) ∧
  (∀ x, st.internalURLsCache.Has x = true ↔ x ∈ st.internalURLs)

/-! ## Lemmas on maps -/

theorem mapGet_mapSet_self {K V : Type} [DecidableEq K] (m : List (K × V)) (k : K) (v : V) :
    mapGet (mapSet m k v) k = some v := by
  induction m with
  | nil => simp [mapSet, mapGet]
  | cons hd tl ih =>
    obtain ⟨k1, v1⟩ := hd
    by_cases h : k1 = k
    · simp [mapSet, mapGet, h]
    · simp [mapSet, mapGet, h, ih]

theorem mapGet_mapSet_other {K V : Type} [DecidableEq K] (m : List (K × V)) (k j : K) (v : V)
    (hj : j ≠ k) : mapGet (mapSet m k v) j = mapGet m j := by
  induction m with
  | nil => simp [mapSet, mapGet, Ne.symm hj]
  | cons hd tl ih =>
    obtain ⟨k1, v1⟩ := hd
    by_cases h : k1 = k
    · subst h
      simp [mapSet, mapGet, Ne.symm hj]
    · by_cases h2 : k1 = j
      · subst h2
        simp [mapSet, mapGet, h]
      · simp [mapSet, mapGet, h, h2, ih]

theorem mapGet_isSome_iff {K V : Type} [DecidableEq K] (m : List (K × V)) (k : K) :
    (mapGet m k).isSome = true ↔ k ∈ mapKeys m := by
  induction m with
  | nil => simp [mapGet, mapKeys]
  | cons hd tl ih =>
    obtain ⟨k1, v1⟩ := hd
    by_cases h : k1 = k
    · simp [mapGet, mapKeys, h]
    · have ih1 : (mapGet tl k).isSome = true ↔ k ∈ List.map Prod.fst tl := ih
      simp [mapGet, mapKeys, h, ih1, Ne.symm h]

theorem mapGet_eq_none_iff {K V : Type} [DecidableEq K] (m : List (K × V)) (k : K) :
    mapGet m k = none ↔ k ∉ mapKeys m := by
  rw [← mapGet_isSome_iff]
  cases mapGet m k <;> simp

theorem mapKeys_mapSet_fresh {K V : Type} [DecidableEq K] (m : List (K × V)) (k : K) (v : V)
    (h : mapGet m k = none) : mapKeys (mapSet m k v) = mapKeys m ++ [k] := by
  induction m with
  | nil => simp [mapSet, mapKeys]
  | cons hd tl ih =>
    obtain ⟨k1, v1⟩ := hd
    by_cases h1 : k1 = k
    · simp [mapGet, h1] at h
    · simp only [mapGet, h1, if_false] at h
      have ih1 := ih h
      simp only [mapKeys] at ih1
      simp [mapSet, mapKeys, h1, ih1]

theorem mem_of_mapGet {K V : Type} [DecidableEq K] (m : List (K × V)) (k : K) (v : V)
    (h : mapGet m k = some v) : (k, v) ∈ m := by
  induction m with
  | nil => simp [mapGet] at h
  | cons hd tl ih =>
    obtain ⟨k1, v1⟩ := hd
    by_cases h1 : k1 = k
    · simp [mapGet, h1] at h
      simp [h1, h]
    · simp only [mapGet, h1, if_false] at h
      exact List.mem_cons_of_mem _ (ih h)

theorem mem_mapSet {K V : Type} [DecidableEq K] (m : List (K × V)) (k a : K) (v b : V)
    (h : (a, b) ∈ mapSet m k v) : (a = k ∧ b = v) ∨ (a, b) ∈ m := by
  induction m with
  | nil => simpa [mapSet] using h
  | cons hd tl ih =>
    obtain ⟨k1, v1⟩ := hd
    by_cases h1 : k1 = k
    · simp only [mapSet, h1, if_true, List.mem_cons, Prod.mk.injEq] at h
      rcases h with h | h
      · exact Or.inl h
      · exact Or.inr (List.mem_cons_of_mem _ h)
    · simp only [mapSet, h1, if_false, List.mem_cons, Prod.mk.injEq] at h
      rcases h with h | h
      · right; simp [h.1, h.2]
      · rcases ih h with h2 | h2
        · exact Or.inl h2
        · exact Or.inr (List.mem_cons_of_mem _ h2)

/-! ## Lemmas on the graph -/

theorem Graph.hasNode_iff_mem (g : Graph) (u : String) :
    g.HasNode u = true ↔ u ∈ mapKeys g.nodes := by
  unfold Graph.HasNode
  exact mapGet_isSome_iff g.nodes u

theorem Graph.hasNode_addNode (g : Graph) (v u : String) :
    (g.AddNode v).HasNode u = (g.HasNode u || decide (u = v)) := by
  unfold Graph.AddNode
  by_cases hv : g.HasNode v = true
  · by_cases huv : u = v
    · subst huv; simp [hv]
    · simp [hv, huv]
  · rw [if_neg hv]
    by_cases huv : u = v
    · subst huv
      simp [Graph.HasNode, mapGet_mapSet_self]
    · simp [huv, Graph.HasNode, mapGet_mapSet_other _ _ _ _ huv]

theorem Graph.nodes_addEdge (g : Graph) (s e : String) :
    (g.AddEdge s e).1.nodes = g.nodes := by
  unfold Graph.AddEdge
  cases mapGet g.nodes s with
  | none => rfl
  | some sn =>
    cases mapGet g.nodes e with
    | none => rfl
    | some en => rfl

theorem Graph.hasNode_addEdge (g : Graph) (s e u : String) :
    (g.AddEdge s e).1.HasNode u = g.HasNode u := by
  simp [Graph.HasNode, Graph.nodes_addEdge]

theorem Graph.hasNode_apply (g : Graph) (op : GraphOp) (u : String) :
    (g.apply op).HasNode u = true ↔ g.HasNode u = true ∨ op = GraphOp.addNode u := by
  cases op with
  | addNode v =>
    simp only [Graph.apply, Graph.hasNode_addNode, Bool.or_eq_true, decide_eq_true_eq,
      GraphOp.addNode.injEq]
    constructor
    · rintro (h | h)
      · exact Or.inl h
      · exact Or.inr h.symm
    · rintro (h | h)
      · exact Or.inl h
      · exact Or.inr h.symm
  | addEdge s e =>
    simp [Graph.apply, Graph.hasNode_addEdge]

theorem Graph.hasNode_run (ops : List GraphOp) (g : Graph) (u : String) :
    (g.run ops).HasNode u = true ↔ g.HasNode u = true ∨ GraphOp.addNode u ∈ ops := by
  induction ops generalizing g with
  | nil => simp [Graph.run]
  | cons op rest ih =>
    have h := ih (g.apply op)
    simp only [Graph.run, List.foldl_cons] at h ⊢
    rw [h, Graph.hasNode_apply]
    simp only [List.mem_cons]
    constructor
    · rintro ((h1 | h1) | h1)
      · exact Or.inl h1
      · exact Or.inr (Or.inl h1.symm)
      · exact Or.inr (Or.inr h1)
    · rintro (h1 | h1 | h1)
      · exact Or.inl (Or.inl h1)
      · exact Or.inl (Or.inr h1.symm)
      · exact Or.inr h1

theorem Graph.hasNode_new (u : String) : NewGraph.HasNode u = false := by
  simp [NewGraph, Graph.HasNode, mapGet]

theorem Graph.hasNode_run_new (ops : List GraphOp) (u : String) :
    (NewGraph.run ops).HasNode u = true ↔ GraphOp.addNode u ∈ ops := by
  rw [Graph.hasNode_run, Graph.hasNode_new]
  simp

theorem Graph.addEdge_error_none_iff (g : Graph) (s e : String) :
    (g.AddEdge s e).2 = none ↔ g.HasNode s = true ∧ g.HasNode e = true := by
  unfold Graph.AddEdge Graph.HasNode
  cases mapGet g.nodes s with
  | none => simp
  | some sn =>
    cases mapGet g.nodes e with
    | none => simp
    | some en => simp

theorem Graph.sound_new : NewGraph.Sound := by
  constructor
  · intro k n h
    simp [NewGraph, mapGet] at h
  · intro source targets h
    simp [NewGraph] at h

theorem Graph.sound_addNode (g : Graph) (u : String) (hg : g.Sound) : (g.AddNode u).Sound := by
  by_cases hu : g.HasNode u = true
  · simpa [Graph.AddNode, hu] using hg
  · constructor
    · intro k n h
      simp only [Graph.AddNode, hu] at h
      by_cases hk : k = u
      · subst hk
        simp only [if_false, Bool.false_eq_true, mapGet_mapSet_self, Option.some.injEq] at h
        exact h.symm
      · simp only [if_false, Bool.false_eq_true, mapGet_mapSet_other _ _ _ _ hk] at h
        exact hg.1 k n h
    · intro source targets h
      have hedges : (g.AddNode u).edges = g.edges := by
        simp [Graph.AddNode, hu]
      rw [hedges] at h
      obtain ⟨h1, h2⟩ := hg.2 source targets h
      refine ⟨?_, ?_⟩
      · rw [Graph.hasNode_addNode]; simp [h1]
      · intro t ht
        rw [Graph.hasNode_addNode]; simp [h2 t ht]

theorem Graph.sound_addEdge (g : Graph) (s e : String) (hg : g.Sound) :
    (g.AddEdge s e).1.Sound := by
  unfold Graph.AddEdge
  cases hs : mapGet g.nodes s with
  | none => exact hg
  | some sn =>
    cases he : mapGet g.nodes e with
    | none => exact hg
    | some en =>
      have hsn : sn = { url := s } := hg.1 s sn hs
      have hen : en = { url := e } := hg.1 e en he
      have hHs : g.HasNode s = true := by simp [Graph.HasNode, hs]
      have hHe : g.HasNode e = true := by simp [Graph.HasNode, he]
      constructor
      · exact hg.1
      · intro source targets h
        change g.HasNode source.url = true ∧ ∀ t ∈ targets, g.HasNode t.url = true
        rcases mem_mapSet _ _ _ _ _ h with ⟨h1, h2⟩ | h1
        · rw [h1, h2]
          refine ⟨by simpa [hsn] using hHs, ?_⟩
          intro t ht
          rcases List.mem_append.1 ht with ht | ht
          · cases hold : mapGet g.edges sn with
            | none => simp [hold] at ht
            | some old =>
              simp only [hold, Option.getD_some] at ht
              exact (hg.2 sn old (mem_of_mapGet _ _ _ hold)).2 t ht
          · simp only [List.mem_singleton] at ht
            subst ht
            simpa [hen] using hHe
        · exact hg.2 source targets h1

theorem Graph.sound_run (ops : List GraphOp) (g : Graph) (hg : g.Sound) : (g.run ops).Sound := by
  induction ops generalizing g with
  | nil => simpa [Graph.run] using hg
  | cons op rest ih =>
    have hstep : (g.apply op).Sound := by
      cases op with
      | addNode u => exact Graph.sound_addNode g u hg
      | addEdge s e => exact Graph.sound_addEdge g s e hg
    simpa [Graph.run] using ih (g.apply op) hstep

theorem Graph.mapGet_of_hasNode (g : Graph) (hg : g.Sound) (u : String)
    (hu : g.HasNode u = true) : mapGet g.nodes u = some { url := u } := by
  unfold Graph.HasNode at hu
  cases h : mapGet g.nodes u with
  | none => simp [h] at hu
  | some n => rw [hg.1 u n h]

theorem Graph.addEdge_of_hasNode (g : Graph) (hg : g.Sound) (s e : String)
    (hs : g.HasNode s = true) (he : g.HasNode e = true) :
    g.AddEdge s e =
      ({ g with
          edges :=
            mapSet g.edges (Node.mk s) ((mapGet g.edges (Node.mk s)).getD [] ++ [Node.mk e]) },
        none) := by
  unfold Graph.AddEdge
  rw [Graph.mapGet_of_hasNode g hg s hs, Graph.mapGet_of_hasNode g hg e he]

theorem Graph.adjacent_addEdge_self (g : Graph) (hg : g.Sound) (s e : String)
    (hs : g.HasNode s = true) (he : g.HasNode e = true) :
    (g.AddEdge s e).1.adjacent s = g.adjacent s ++ [e] := by
  rw [Graph.addEdge_of_hasNode g hg s e hs he]
  simp [Graph.adjacent, mapGet_mapSet_self]

theorem Graph.adjacent_addEdge_other (g : Graph) (s e u : String) (hu : u ≠ s)
    (hg : g.Sound) : (g.AddEdge s e).1.adjacent u = g.adjacent u := by
  unfold Graph.AddEdge
  cases hs : mapGet g.nodes s with
  | none => rfl
  | some sn =>
    cases he : mapGet g.nodes e with
    | none => rfl
    | some en =>
      have hsn : sn = { url := s } := hg.1 s sn hs
      have hne : ({ url := u } : Node) ≠ sn := by
        rw [hsn]
        intro h
        exact hu (by injection h)
      simp [Graph.adjacent, mapGet_mapSet_other _ _ _ _ hne]

/-! ## Claims on the graph -/

/-- C4: after any sequence of `AddNode` and `AddEdge` calls on a new graph,
`HasNode(u)` is true exactly when `AddNode(u)` is one of the calls; it is true
right after `AddNode(u)` on any graph, false on a new graph, and `AddEdge`
does not change it. -/
theorem hasNode_exact_membership (ops : List GraphOp) (u : String) :
    ((NewGraph.run ops).HasNode u = true ↔ GraphOp.addNode u ∈ ops) ∧
    (∀ g : Graph, (g.AddNode u).HasNode u = true) ∧
    NewGraph.HasNode u = false ∧
    (∀ (g : Graph) (s e : String), (g.AddEdge s e).1.HasNode u = g.HasNode u) := by
  refine ⟨Graph.hasNode_run_new ops u, ?_, Graph.hasNode_new u,
    fun g s e => Graph.hasNode_addEdge g s e u⟩
  intro g
  rw [Graph.hasNode_addNode]
  simp

/-- C5: `AddNode(u)` twice gives the same graph as `AddNode(u)` once, and
`AddNode(u)` leaves a graph that has `u` unchanged. -/
theorem addNode_idempotent (g : Graph) (u : String) :
    (g.AddNode u).AddNode u = g.AddNode u ∧ (g.HasNode u = true → g.AddNode u = g) := by
  have fixed : ∀ g1 : Graph, g1.HasNode u = true → g1.AddNode u = g1 := by
    intro g1 h
    simp [Graph.AddNode, h]
  refine ⟨fixed (g.AddNode u) ?_, fixed g⟩
  rw [Graph.hasNode_addNode]
  simp

/-- Witness of C5 on the graph of `TestAddNode`, which has its URL. -/
theorem addNode_idempotent_witness :
    (NewGraph.AddNode "https://example.com").HasNode "https://example.com" = true ∧
    (NewGraph.AddNode "https://example.com").AddNode "https://example.com" =
      NewGraph.AddNode "https://example.com" :=
  ⟨by decide,
    (addNode_idempotent (NewGraph.AddNode "https://example.com") "https://example.com").2
      (by decide)⟩

/-- C6: on a graph built from a new graph by any calls, `AddEdge(s, e)`
returns an error exactly when `s` or `e` was never added with `AddNode`, and
returns `nil` when both were added. -/
theorem addEdge_fails_iff_unknown (ops : List GraphOp) (s e : String) :
    (((NewGraph.run ops).AddEdge s e).2 ≠ none ↔
      (GraphOp.addNode s ∉ ops ∨ GraphOp.addNode e ∉ ops)) ∧
    (GraphOp.addNode s ∈ ops → GraphOp.addNode e ∈ ops →
      ((NewGraph.run ops).AddEdge s e).2 = none) := by
  have hs := Graph.hasNode_run_new ops s
  have he := Graph.hasNode_run_new ops e
  have key := Graph.addEdge_error_none_iff (NewGraph.run ops) s e
  constructor
  · rw [Ne, key, hs, he]
    tauto
  · intro h1 h2
    exact key.2 ⟨hs.2 h1, he.2 h2⟩

/-- Witness of C6: `TestAddEdge` adds both nodes and gets no error;
`TestAddEdgeError` adds only the start node and gets an error. -/
theorem addEdge_fails_iff_unknown_witness :
    ((NewGraph.run [GraphOp.addNode "https://example.com",
        GraphOp.addNode "https://example.com/savings"]).AddEdge
      "https://example.com" "https://example.com/savings").2 = none ∧
    ((NewGraph.run [GraphOp.addNode "https://example.com"]).AddEdge
      "https://example.com" "https://example.com/cards").2 ≠ none :=
  ⟨(addEdge_fails_iff_unknown
      [GraphOp.addNode "https://example.com", GraphOp.addNode "https://example.com/savings"]
      "https://example.com" "https://example.com/savings").2 (by decide) (by decide),
    (addEdge_fails_iff_unknown [GraphOp.addNode "https://example.com"]
      "https://example.com" "https://example.com/cards").1.2 (Or.inr (by decide))⟩

/-- C7: in a graph built from a new graph by any calls of `AddNode` and
`AddEdge`, failing ones included, the source and every target of every entry
of the edge map are nodes of the graph. -/
theorem edges_join_nodes (ops : List GraphOp) (source : Node) (targets : List Node)
    (h : (source, targets) ∈ (NewGraph.run ops).edges) :
    (NewGraph.run ops).HasNode source.url = true ∧
    ∀ t ∈ targets, (NewGraph.run ops).HasNode t.url = true :=
  (Graph.sound_run ops NewGraph Graph.sound_new).2 source targets h

/-- Witness of C7: two nodes, one edge, and a failing `AddEdge`. -/
theorem edges_join_nodes_witness :
    (NewGraph.run [GraphOp.addNode "a", GraphOp.addNode "b", GraphOp.addEdge "a" "b",
        GraphOp.addEdge "a" "c"]).HasNode "a" = true ∧
    ∀ t ∈ [Node.mk "b"],
      (NewGraph.run [GraphOp.addNode "a", GraphOp.addNode "b", GraphOp.addEdge "a" "b",
        GraphOp.addEdge "a" "c"]).HasNode t.url = true :=
  edges_join_nodes
    [GraphOp.addNode "a", GraphOp.addNode "b", GraphOp.addEdge "a" "b", GraphOp.addEdge "a" "c"]
    (Node.mk "a") [Node.mk "b"] (by decide)

/-- C8: on a graph built from a new graph by any calls, with both `s` and `e`
present, `AddEdge(s, e)` succeeds, the adjacency list of `s` becomes the old
list with `e` appended, the node map is unchanged, and the adjacency list of
every other URL is unchanged. -/
theorem addEdge_appends_one_edge (ops : List GraphOp) (s e : String)
    (hs : (NewGraph.run ops).HasNode s = true) (he : (NewGraph.run ops).HasNode e = true) :
    ((NewGraph.run ops).AddEdge s e).2 = none ∧
    ((NewGraph.run ops).AddEdge s e).1.adjacent s = (NewGraph.run ops).adjacent s ++ [e] ∧
    ((NewGraph.run ops).AddEdge s e).1.nodes = (NewGraph.run ops).nodes ∧
    ∀ u, u ≠ s → ((NewGraph.run ops).AddEdge s e).1.adjacent u = (NewGraph.run ops).adjacent u := by
  have hg := Graph.sound_run ops NewGraph Graph.sound_new
  exact ⟨(Graph.addEdge_error_none_iff _ s e).2 ⟨hs, he⟩,
    Graph.adjacent_addEdge_self _ hg s e hs he,
    Graph.nodes_addEdge _ s e,
    fun u hu => Graph.adjacent_addEdge_other _ s e u hu hg⟩

/-- Witness of C8: a second edge between the same two nodes is kept. -/
theorem addEdge_appends_one_edge_witness :
    ((NewGraph.run [GraphOp.addNode "a", GraphOp.addNode "b", GraphOp.addEdge "a" "b"]).AddEdge
      "a" "b").1.adjacent "a" = ["b", "b"] :=
  (addEdge_appends_one_edge
    [GraphOp.addNode "a", GraphOp.addNode "b", GraphOp.addEdge "a" "b"] "a" "b"
    (by decide) (by decide)).2.1

/-! ## Claims on the counters -/

theorem Stats.pending_apply (s : Stats) (op : StatsOp)
    (h : s.pending = s.total - s.completed - s.failures) :
    (s.apply op).pending = (s.apply op).total - (s.apply op).completed - (s.apply op).failures := by
  cases op <;>
    simp only [Stats.apply, Stats.RecordNewOperation, Stats.RecordOperationCompletion,
      Stats.RecordOperationFailure, h] <;> ring

theorem Stats.pending_run (ops : List StatsOp) (s : Stats)
    (h : s.pending = s.total - s.completed - s.failures) :
    (s.run ops).pending = (s.run ops).total - (s.run ops).completed - (s.run ops).failures := by
  induction ops generalizing s with
  | nil => simpa [Stats.run] using h
  | cons op rest ih => simpa [Stats.run] using ih (s.apply op) (Stats.pending_apply s op h)

theorem Stats.run_counts (ops : List StatsOp) (s : Stats) :
    (s.run ops).total = s.total + ops.count StatsOp.newOperation ∧
    (s.run ops).completed = s.completed + ops.count StatsOp.completion ∧
    (s.run ops).failures = s.failures + ops.count StatsOp.failure ∧
    (s.run ops).pending = s.pending + ops.count StatsOp.newOperation
      - ops.count StatsOp.completion - ops.count StatsOp.failure ∧
    (s.run ops).startTime = s.startTime ∧ (s.run ops).duration = s.duration := by
  induction ops generalizing s with
  | nil => simp [Stats.run]
  | cons op rest ih =>
    obtain ⟨h1, h2, h3, h4, h5, h6⟩ := ih (s.apply op)
    simp only [Stats.run, List.foldl_cons] at h1 h2 h3 h4 h5 h6 ⊢
    rw [h1, h2, h3, h4, h5, h6]
    cases op <;>
      simp [Stats.apply, Stats.RecordNewOperation, Stats.RecordOperationCompletion,
        Stats.RecordOperationFailure, List.count_cons] <;> ring_nf <;> simp

/-- C9: after any sequence of `RecordNewOperation`,
`RecordOperationCompletion` and `RecordOperationFailure` calls on new counters,
`pending == total - completed - failures`. -/
theorem stats_pending_invariant (ops : List StatsOp) :
    (NewStats.run ops).Pending =
      (NewStats.run ops).Total - (NewStats.run ops).Completed - (NewStats.run ops).Failures :=
  Stats.pending_run ops NewStats (by decide)

/-- C10: whatever the order of `a` calls of `RecordNewOperation`, `b` of
`RecordOperationCompletion` and `c` of `RecordOperationFailure`, new counters
end with total `a`, completed `b`, failures `c` and pending `a - b - c`; from
any counters each count grows by exactly its number of calls; and a recording
call changes no field other than the two counters it names. -/
theorem stats_counts_exact (a b c : Nat) (ops : List StatsOp)
    (ha : ops.count StatsOp.newOperation = a) (hb : ops.count StatsOp.completion = b)
    (hc : ops.count StatsOp.failure = c) :
    ((NewStats.run ops).Total = a ∧ (NewStats.run ops).Completed = b ∧
      (NewStats.run ops).Failures = c ∧ (NewStats.run ops).Pending = (a : Int) - b - c) ∧
    (∀ s : Stats, (s.run ops).Total = s.Total + a ∧ (s.run ops).Completed = s.Completed + b ∧
      (s.run ops).Failures = s.Failures + c ∧ (s.run ops).Pending = s.Pending + a - b - c) ∧
    (∀ s : Stats,
      (s.RecordNewOperation.completed = s.completed ∧ s.RecordNewOperation.failures = s.failures ∧
        s.RecordNewOperation.startTime = s.startTime ∧
        s.RecordNewOperation.duration = s.duration) ∧
      (s.RecordOperationCompletion.total = s.total ∧
        s.RecordOperationCompletion.failures = s.failures ∧
        s.RecordOperationCompletion.startTime = s.startTime ∧
        s.RecordOperationCompletion.duration = s.duration) ∧
      (s.RecordOperationFailure.total = s.total ∧
        s.RecordOperationFailure.completed = s.completed ∧
        s.RecordOperationFailure.startTime = s.startTime ∧
        s.RecordOperationFailure.duration = s.duration)) := by
  have general : ∀ s : Stats, (s.run ops).Total = s.Total + a ∧
      (s.run ops).Completed = s.Completed + b ∧ (s.run ops).Failures = s.Failures + c ∧
      (s.run ops).Pending = s.Pending + a - b - c := by
    intro s
    obtain ⟨h1, h2, h3, h4, _, _⟩ := Stats.run_counts ops s
    rw [ha, hb, hc] at h4
    rw [ha] at h1
    rw [hb] at h2
    rw [hc] at h3
    exact ⟨h1, h2, h3, h4⟩
  refine ⟨?_, general, ?_⟩
  · obtain ⟨h1, h2, h3, h4⟩ := general NewStats
    refine ⟨?_, ?_, ?_, ?_⟩
    · simpa [Stats.Total, NewStats] using h1
    · simpa [Stats.Completed, NewStats] using h2
    · simpa [Stats.Failures, NewStats] using h3
    · simpa [Stats.Pending, NewStats] using h4
  · intro s
    simp [Stats.RecordNewOperation, Stats.RecordOperationCompletion,
      Stats.RecordOperationFailure]

/-- Witness of C10 on the three tests of the counters: 100 new operations;
200 failures from 200 pending; 250 completions from 250 pending. -/
theorem stats_counts_exact_witness :
    ((NewStats.run (List.replicate 100 StatsOp.newOperation)).Total = 100 ∧
      (NewStats.run (List.replicate 100 StatsOp.newOperation)).Pending = 100) ∧
    (({ NewStats with pending := 200 }.run (List.replicate 200 StatsOp.failure)).Failures = 200 ∧
      ({ NewStats with pending := 200 }.run (List.replicate 200 StatsOp.failure)).Pending = 0) ∧
    (({ NewStats with pending := 250 }.run
        (List.replicate 250 StatsOp.completion)).Completed = 250 ∧
      ({ NewStats with pending := 250 }.run
        (List.replicate 250 StatsOp.completion)).Pending = 0) := by
  have t1 := (stats_counts_exact 100 0 0 (List.replicate 100 StatsOp.newOperation)
    (List.count_replicate_self _ _) (by rw [List.count_replicate]; rfl) (by rw [List.count_replicate]; rfl)).1
  have t2 := (stats_counts_exact 0 0 200 (List.replicate 200 StatsOp.failure)
    (by rw [List.count_replicate]; rfl) (by rw [List.count_replicate]; rfl) (List.count_replicate_self _ _)).2.1 { NewStats with pending := 200 }
  have t3 := (stats_counts_exact 0 250 0 (List.replicate 250 StatsOp.completion)
    (by rw [List.count_replicate]; rfl) (List.count_replicate_self _ _) (by rw [List.count_replicate]; rfl)).2.1 { NewStats with pending := 250 }
  refine ⟨⟨?_, ?_⟩, ⟨?_, ?_⟩, ⟨?_, ?_⟩⟩
  · exact t1.1.trans (by norm_num)
  · exact t1.2.2.2.trans (by norm_num)
  · exact t2.2.2.1.trans (by norm_num [Stats.Failures, NewStats])
  · exact t2.2.2.2.trans (by norm_num [Stats.Pending, NewStats])
  · exact t3.2.1.trans (by norm_num [Stats.Completed, NewStats])
  · exact t3.2.2.2.trans (by norm_num [Stats.Pending, NewStats])

/-! ## Lemmas on the coordinator -/

theorem Graph.keys_addNode_fresh (g : Graph) (u : String) (h : g.HasNode u = false) :
    mapKeys (g.AddNode u).nodes = mapKeys g.nodes ++ [u] := by
  have hnone : mapGet g.nodes u = none := by
    unfold Graph.HasNode at h
    cases hm : mapGet g.nodes u with
    | none => rfl
    | some n => simp [hm] at h
  simp only [Graph.AddNode, h, Bool.false_eq_true, if_false]
  exact mapKeys_mapSet_fresh g.nodes u _ hnone

/-- What one link does to the run. -/
theorem Run.link_spec (pageURL : String) (r : Run) (url : String) (h : r.Inv) :
    (r.link pageURL url).Inv ∧
    (r.link pageURL url).c.URL = r.c.URL ∧
    (r.link pageURL url).c.Workers = r.c.Workers ∧
    (r.link pageURL url).c.LogWriter = r.c.LogWriter ∧
    (r.link pageURL url).c.Stats.completed = r.c.Stats.completed ∧
    (r.link pageURL url).c.Stats.failures = r.c.Stats.failures ∧
    (r.link pageURL url).urlChannel =
      (if r.c.Graph.HasNode url = true then r.urlChannel else r.urlChannel ++ [url]) := by
  by_cases hv : r.c.Graph.HasNode url = true
  · have hl : r.link pageURL url =
        { r with c := { r.c with Graph := (r.c.Graph.AddEdge pageURL url).1 } } := by
      simp [Run.link, hv]
    rw [hl]
    refine ⟨?_, rfl, rfl, rfl, rfl, rfl, by simp [hv]⟩
    exact
      { keys := by
          show mapKeys (r.c.Graph.AddEdge pageURL url).1.nodes = r.urlChannel
          rw [Graph.nodes_addEdge]; exact h.keys
        nodup := h.nodup
        wg := h.wg
        pending := h.pending
        total := h.total
        sound := Graph.sound_addEdge _ _ _ h.sound }
  · have hf : r.c.Graph.HasNode url = false := by simpa using hv
    have hl : r.link pageURL url =
        { c := { r.c with
              Graph := ((r.c.Graph.AddNode url).AddEdge pageURL url).1
              wg := r.c.wg + 1
              Stats := r.c.Stats.RecordNewOperation }
          urlChannel := r.urlChannel ++ [url] } := by
      simp [Run.link, hf]
    rw [hl]
    have hnot : url ∉ r.urlChannel := by
      rw [← h.keys, ← Graph.hasNode_iff_mem]
      simp [hf]
    refine ⟨?_, rfl, rfl, rfl, rfl, rfl, by simp [hf]⟩
    exact
      { keys := by
          show mapKeys ((r.c.Graph.AddNode url).AddEdge pageURL url).1.nodes
            = r.urlChannel ++ [url]
          rw [Graph.nodes_addEdge, Graph.keys_addNode_fresh _ _ hf, h.keys]
        nodup := by
          show (r.urlChannel ++ [url]).Nodup
          rw [List.nodup_append]
          refine ⟨h.nodup, List.nodup_singleton _, ?_⟩
          intro a ha hb
          rw [List.mem_singleton] at hb
          subst hb
          exact hnot ha
        wg := by
          show r.c.wg + 1 = r.c.Stats.pending + 1
          rw [h.wg]
        pending := by
          show r.c.Stats.pending + 1 =
            r.c.Stats.total + 1 - r.c.Stats.completed - r.c.Stats.failures
          rw [h.pending]; ring
        total := by
          show r.c.Stats.total + 1 = ((r.urlChannel ++ [url]).length : Int)
          rw [h.total]; simp
        sound := Graph.sound_addEdge _ _ _ (Graph.sound_addNode _ _ h.sound) }

/-- What the links of one page do to the run. -/
theorem Run.links_spec (pageURL : String) (links : List String) (r : Run) (h : r.Inv) :
    (links.foldl (Run.link pageURL) r).Inv ∧
    (links.foldl (Run.link pageURL) r).c.URL = r.c.URL ∧
    (links.foldl (Run.link pageURL) r).c.Workers = r.c.Workers ∧
    (links.foldl (Run.link pageURL) r).c.LogWriter = r.c.LogWriter ∧
    (links.foldl (Run.link pageURL) r).c.Stats.completed = r.c.Stats.completed ∧
    (links.foldl (Run.link pageURL) r).c.Stats.failures = r.c.Stats.failures ∧
    (∀ v, v ∈ (links.foldl (Run.link pageURL) r).urlChannel ↔ v ∈ r.urlChannel ∨ v ∈ links) := by
  induction links generalizing r with
  | nil => simp [h]
  | cons url rest ih =>
    obtain ⟨i1, u1, w1, l1, c1, f1, ch1⟩ := Run.link_spec pageURL r url h
    obtain ⟨i2, u2, w2, l2, c2, f2, ch2⟩ := ih (r.link pageURL url) i1
    simp only [List.foldl_cons]
    refine ⟨i2, u2.trans u1, w2.trans w1, l2.trans l1, c2.trans c1, f2.trans f1, ?_⟩
    intro v
    rw [ch2 v, ch1]
    by_cases hv : r.c.Graph.HasNode url = true
    · have hmem : url ∈ r.urlChannel := by
        rw [← h.keys, ← Graph.hasNode_iff_mem]; exact hv
      rw [if_pos hv]
      simp only [List.mem_cons]
      constructor
      · rintro (h1 | h1)
        · exact Or.inl h1
        · exact Or.inr (Or.inr h1)
      · rintro (h1 | h1 | h1)
        · exact Or.inl h1
        · subst h1; exact Or.inl hmem
        · exact Or.inr h1
    · rw [if_neg hv]
      simp only [List.mem_append, List.mem_singleton, List.mem_cons]
      tauto

/-- What the coordinator does to the run for one page. -/
theorem Run.listenForPages_spec (r : Run) (p : Page) (h : r.Inv) :
    (r.listenForPages p).Inv ∧
    (r.listenForPages p).c.URL = r.c.URL ∧
    (r.listenForPages p).c.Workers = r.c.Workers ∧
    (r.listenForPages p).c.LogWriter = r.c.LogWriter ++ [p.Print] ∧
    (r.listenForPages p).c.Stats.completed = r.c.Stats.completed + 1 ∧
    (r.listenForPages p).c.Stats.failures = r.c.Stats.failures ∧
    (∀ v, v ∈ (r.listenForPages p).urlChannel ↔ v ∈ r.urlChannel ∨ v ∈ p.InternalURLs) := by
  obtain ⟨i1, u1, w1, l1, c1, f1, ch1⟩ := Run.links_spec p.URL p.InternalURLs r h
  refine ⟨?_, u1, w1, ?_, ?_, f1, ch1⟩
  · exact
      { keys := i1.keys
        nodup := i1.nodup
        wg := by
          show (p.InternalURLs.foldl (Run.link p.URL) r).c.wg - 1 =
            (p.InternalURLs.foldl (Run.link p.URL) r).c.Stats.pending + -1
          rw [i1.wg]; ring
        pending := by
          show (p.InternalURLs.foldl (Run.link p.URL) r).c.Stats.pending + -1 =
            (p.InternalURLs.foldl (Run.link p.URL) r).c.Stats.total
              - ((p.InternalURLs.foldl (Run.link p.URL) r).c.Stats.completed + 1)
              - (p.InternalURLs.foldl (Run.link p.URL) r).c.Stats.failures
          rw [i1.pending]; ring
        total := i1.total
        sound := i1.sound }
  · show (p.InternalURLs.foldl (Run.link p.URL) r).c.LogWriter ++ [p.Print] = _
    rw [l1]
  · show (p.InternalURLs.foldl (Run.link p.URL) r).c.Stats.completed + 1 = _
    rw [c1]

/-- What the error listener does to the run for one error. -/
theorem Run.listenForErrors_spec (r : Run) (err : String) (h : r.Inv) :
    (r.listenForErrors err).Inv ∧
    (r.listenForErrors err).c.URL = r.c.URL ∧
    (r.listenForErrors err).c.Workers = r.c.Workers ∧
    (r.listenForErrors err).c.Stats.completed = r.c.Stats.completed ∧
    (r.listenForErrors err).c.Stats.failures = r.c.Stats.failures + 1 ∧
    (r.listenForErrors err).urlChannel = r.urlChannel ∧
    (r.listenForErrors err).c.Graph = r.c.Graph := by
  refine ⟨?_, rfl, rfl, rfl, rfl, rfl, rfl⟩
  exact
    { keys := h.keys
      nodup := h.nodup
      wg := by
        show r.c.wg - 1 = r.c.Stats.pending + -1
        rw [h.wg]; ring
      pending := by
        show r.c.Stats.pending + -1 =
          r.c.Stats.total - r.c.Stats.completed - (r.c.Stats.failures + 1)
        rw [h.pending]; ring
      total := h.total
      sound := h.sound }

theorem Stats.recordStartTime_counters (s : Stats) (now : Int) :
    (s.RecordStartTime now).total = s.total ∧ (s.RecordStartTime now).pending = s.pending ∧
    (s.RecordStartTime now).completed = s.completed ∧
    (s.RecordStartTime now).failures = s.failures := by
  unfold Stats.RecordStartTime
  split <;> simp

theorem Stats.recordTotalDuration_counters (s : Stats) (now : Int) :
    (s.RecordTotalDuration now).total = s.total ∧
    (s.RecordTotalDuration now).pending = s.pending ∧
    (s.RecordTotalDuration now).completed = s.completed ∧
    (s.RecordTotalDuration now).failures = s.failures := by
  unfold Stats.RecordTotalDuration
  split
  · simp
  · split <;> simp

/-- The bookkeeping holds when `Crawl` has sent the seed. -/
theorem Crawler.seed_inv (url : String) (workers timeout now : Int) :
    ((NewCrawler url workers timeout).Crawl now).Inv ∧
    ((NewCrawler url workers timeout).Crawl now).urlChannel = [(NewCrawler url workers timeout).URL] ∧
    ((NewCrawler url workers timeout).Crawl now).c.URL = (NewCrawler url workers timeout).URL ∧
    ((NewCrawler url workers timeout).Crawl now).c.Workers = workers ∧
    ((NewCrawler url workers timeout).Crawl now).c.Stats.completed = 0 ∧
    ((NewCrawler url workers timeout).Crawl now).c.Stats.failures = 0 := by
  obtain ⟨t, pd, cp, fl⟩ := Stats.recordStartTime_counters (NewStats.RecordNewOperation) now
  have hkeys : mapKeys (NewGraph.AddNode (NewCrawler url workers timeout).URL).nodes =
      [(NewCrawler url workers timeout).URL] := by
    rw [Graph.keys_addNode_fresh _ _ (Graph.hasNode_new _)]
    rfl
  refine ⟨?_, rfl, rfl, rfl, ?_, ?_⟩
  · exact
      { keys := hkeys
        nodup := List.nodup_singleton _
        wg := by
          show (0 : Int) + 1 = ((NewStats.RecordNewOperation).RecordStartTime now).pending
          rw [pd]; rfl
        pending := by
          show ((NewStats.RecordNewOperation).RecordStartTime now).pending =
            ((NewStats.RecordNewOperation).RecordStartTime now).total
              - ((NewStats.RecordNewOperation).RecordStartTime now).completed
              - ((NewStats.RecordNewOperation).RecordStartTime now).failures
          rw [t, pd, cp, fl]; rfl
        total := by
          show ((NewStats.RecordNewOperation).RecordStartTime now).total = _
          rw [t]; rfl
        sound := Graph.sound_addNode _ _ Graph.sound_new }
  · show ((NewStats.RecordNewOperation).RecordStartTime now).completed = 0
    rw [cp]; rfl
  · show ((NewStats.RecordNewOperation).RecordStartTime now).failures = 0
    rw [fl]; rfl

/-- The bookkeeping is kept by every event, and the URL channel only grows. -/
theorem Run.events_spec (evs : List Event) (r : Run) (h : r.Inv) :
    (r.events evs).Inv ∧
    (∀ v, v ∈ r.urlChannel → v ∈ (r.events evs).urlChannel) ∧
    (∀ p, Event.page p ∈ evs → ∀ v ∈ p.InternalURLs, v ∈ (r.events evs).urlChannel) := by
  induction evs generalizing r with
  | nil => simp [Run.events, h]
  | cons ev rest ih =>
    have hstep : (r.handle ev).Inv ∧ ∀ v, v ∈ (r.handle ev).urlChannel ↔
        v ∈ r.urlChannel ∨ ∃ p, ev = Event.page p ∧ v ∈ p.InternalURLs := by
      cases ev with
      | page p =>
        obtain ⟨i1, _, _, _, _, _, ch1⟩ := Run.listenForPages_spec r p h
        refine ⟨i1, fun v => ?_⟩
        show v ∈ (r.listenForPages p).urlChannel ↔ _
        rw [ch1 v]
        simp
      | error err =>
        obtain ⟨i1, _, _, _, _, ch1, _⟩ := Run.listenForErrors_spec r err h
        refine ⟨i1, fun v => ?_⟩
        show v ∈ (r.listenForErrors err).urlChannel ↔ _
        rw [ch1]
        simp
    obtain ⟨i2, mono, pages⟩ := ih (r.handle ev) hstep.1
    have hev : r.events (ev :: rest) = (r.handle ev).events rest := by
      simp [Run.events]
    rw [hev]
    refine ⟨i2, fun v hv => mono v ((hstep.2 v).2 (Or.inl hv)), ?_⟩
    intro p hp v hv
    rcases List.mem_cons.1 hp with hp | hp
    · exact mono v ((hstep.2 v).2 (Or.inr ⟨p, hp.symm, hv⟩))
    · exact pages p hp v hv

theorem crawl_inv (url : String) (workers timeout now : Int) (evs : List Event) :
    (crawl url workers timeout now evs).Inv ∧
    (NewCrawler url workers timeout).URL ∈ (crawl url workers timeout now evs).urlChannel ∧
    (∀ p, Event.page p ∈ evs → ∀ v ∈ p.InternalURLs,
      v ∈ (crawl url workers timeout now evs).urlChannel) := by
  obtain ⟨i0, ch0, _⟩ := Crawler.seed_inv url workers timeout now
  obtain ⟨i1, mono, pages⟩ := Run.events_spec evs _ i0
  refine ⟨i1, mono _ ?_, pages⟩
  rw [ch0]
  simp

/-! ## Claims on the coordinator -/

/-- C1: in a crawl started by `Crawl` on a new crawler, whatever pages (and
errors) the listeners then handle one at a time, no URL is sent to the URL
channel more than once, the seed's initial send included, and every internal
link of every handled page has been sent exactly once. -/
theorem dispatch_at_most_once (url : String) (workers timeout now : Int) (evs : List Event) :
    (∀ u, (crawl url workers timeout now evs).urlChannel.count u ≤ 1) ∧
    (crawl url workers timeout now evs).urlChannel.count (NewCrawler url workers timeout).URL = 1 ∧
    (∀ p, Event.page p ∈ evs → ∀ v ∈ p.InternalURLs,
      (crawl url workers timeout now evs).urlChannel.count v = 1) := by
  obtain ⟨inv, hseed, hpages⟩ := crawl_inv url workers timeout now evs
  refine ⟨fun u => List.nodup_iff_count_le_one.1 inv.nodup u,
    List.count_eq_one_of_mem inv.nodup hseed, ?_⟩
  intro p hp v hv
  exact List.count_eq_one_of_mem inv.nodup (hpages p hp v hv)

/-- Witness of C1: two pages link to the same new URL, the first one twice and
also back to the seed; that URL has been sent once. -/
theorem dispatch_at_most_once_witness :
    (crawl "https://example.com/" 10 20 1 sharedLinkEvents).urlChannel.count
      "https://example.com/loans" = 1 :=
  (dispatch_at_most_once "https://example.com/" 10 20 1 sharedLinkEvents).2.2
    cardsPage (by decide) "https://example.com/loans" (by decide)

/-- C2: after `Crawl` has sent the seed and after every page or error that the
listeners handle, the counter of the wait group equals `Pending()`; so whenever
the wait group is at zero, `pending == 0` and `total == completed + failures`,
and this is still so once `Crawl` has recorded the duration and returns. -/
theorem completion_accounting (url : String) (workers timeout now : Int) (evs : List Event) :
    (crawl url workers timeout now evs).c.wg = (crawl url workers timeout now evs).c.Stats.Pending ∧
    ((crawl url workers timeout now evs).c.wg = 0 →
      ((crawl url workers timeout now evs).c.Stats.Pending = 0 ∧
        (crawl url workers timeout now evs).c.Stats.Total =
          (crawl url workers timeout now evs).c.Stats.Completed
            + (crawl url workers timeout now evs).c.Stats.Failures) ∧
      ∀ later : Int,
        ((crawl url workers timeout now evs).finish later).c.Stats.Pending = 0 ∧
        ((crawl url workers timeout now evs).finish later).c.Stats.Total =
          ((crawl url workers timeout now evs).finish later).c.Stats.Completed
            + ((crawl url workers timeout now evs).finish later).c.Stats.Failures) := by
  obtain ⟨inv, _, _⟩ := crawl_inv url workers timeout now evs
  refine ⟨inv.wg, fun hzero => ?_⟩
  have hp : (crawl url workers timeout now evs).c.Stats.pending = 0 := by
    rw [← inv.wg]; exact hzero
  have ht : (crawl url workers timeout now evs).c.Stats.total =
      (crawl url workers timeout now evs).c.Stats.completed
        + (crawl url workers timeout now evs).c.Stats.failures := by
    have := inv.pending
    rw [hp] at this
    linarith
  refine ⟨⟨hp, ht⟩, fun later => ?_⟩
  obtain ⟨t, pd, cp, fl⟩ :=
    Stats.recordTotalDuration_counters (crawl url workers timeout now evs).c.Stats later
  refine ⟨?_, ?_⟩
  · show ((crawl url workers timeout now evs).c.Stats.RecordTotalDuration later).pending = 0
    rw [pd]; exact hp
  · show ((crawl url workers timeout now evs).c.Stats.RecordTotalDuration later).total =
      ((crawl url workers timeout now evs).c.Stats.RecordTotalDuration later).completed
        + ((crawl url workers timeout now evs).c.Stats.RecordTotalDuration later).failures
    rw [t, cp, fl]; exact ht

/-- Witness of C2: the seed links to one page and the fetch of that page
fails; the wait group is back at zero, with total 2, completed 1, failures 1. -/
theorem completion_accounting_witness :
    (crawl "https://example.com" 10 20 1 failedLinkEvents).c.wg = 0 ∧
    (crawl "https://example.com" 10 20 1 failedLinkEvents).c.Stats.Total = 2 ∧
    (crawl "https://example.com" 10 20 1 failedLinkEvents).c.Stats.Completed = 1 ∧
    (crawl "https://example.com" 10 20 1 failedLinkEvents).c.Stats.Failures = 1 ∧
    (crawl "https://example.com" 10 20 1 failedLinkEvents).c.Stats.Total =
      (crawl "https://example.com" 10 20 1 failedLinkEvents).c.Stats.Completed
        + (crawl "https://example.com" 10 20 1 failedLinkEvents).c.Stats.Failures :=
  ⟨by decide, by decide, by decide, by decide,
    ((completion_accounting "https://example.com" 10 20 1 failedLinkEvents).2 (by decide)).1.2⟩

/-! ## Lemmas on the pipeline -/

theorem length_filter_add_length_filter_not {α : Type} (f : α → Bool) (l : List α) :
    (l.filter f).length + (l.filter (fun a => !f a)).length = l.length := by
  induction l with
  | nil => rfl
  | cons a rest ih =>
    cases h : f a <;> simp [List.filter_cons, h] <;> omega

/-- The bookkeeping holds when `Crawl` has sent the seed. -/
theorem Crawler.start_inv (site : Site) (url : String) (workers timeout now : Int) :
    ((NewCrawler url workers timeout).start now).Inv site (NewCrawler url workers timeout).URL := by
  obtain ⟨i0, ch0, u0, _, c0, f0⟩ := Crawler.seed_inv url workers timeout now
  exact
    { run := i0
      url := u0
      resolvedNodup := List.nodup_nil
      resolvedSent := by
        intro u hu
        simp [Crawler.start] at hu
      completed := by
        show ((NewCrawler url workers timeout).Crawl now).c.Stats.completed = _
        rw [c0]; rfl
      failures := by
        show ((NewCrawler url workers timeout).Crawl now).c.Stats.failures = _
        rw [f0]; rfl
      seedSent := by
        show _ ∈ ((NewCrawler url workers timeout).Crawl now).urlChannel
        rw [ch0]; simp
      reach := by
        intro u hu
        have hu1 : u ∈ ((NewCrawler url workers timeout).Crawl now).urlChannel := hu
        rw [ch0] at hu1
        rw [List.mem_singleton.1 hu1]
        exact Reach.seed
      closed := by
        intro u hu
        simp [Crawler.start] at hu }

/-- One delivery keeps the bookkeeping and resolves one more URL. -/
theorem Pipeline.deliver_spec (site : Site) (seed : String) (s s1 : Pipeline) (u : String)
    (h : s.Inv site seed) (hd : s.deliver site u = some s1) :
    s1.Inv site seed ∧ s1.resolved = s.resolved ++ [u] ∧
    s1.run.c.Workers = s.run.c.Workers := by
  unfold Pipeline.deliver at hd
  by_cases hg : 0 < s.run.c.Workers ∧ s.resolved.count u < s.run.urlChannel.count u
  · rw [if_pos hg] at hd
    have hle : s.run.urlChannel.count u ≤ 1 := List.nodup_iff_count_le_one.1 h.run.nodup u
    have hcnt : s.resolved.count u = 0 := by omega
    have hnew : u ∉ s.resolved := List.count_eq_zero.1 hcnt
    have hsent : u ∈ s.run.urlChannel := by
      apply List.count_pos_iff.1
      omega
    have hnodup : (s.resolved ++ [u]).Nodup := by
      rw [List.nodup_append]
      refine ⟨h.resolvedNodup, List.nodup_singleton _, ?_⟩
      intro a ha hb
      rw [List.mem_singleton] at hb
      subst hb
      exact hnew ha
    cases hsite : site u with
    | failure err =>
      rw [hsite] at hd
      simp only [Option.some.injEq] at hd
      subst hd
      have hok : site.ok u = false := by simp [Site.ok, hsite]
      have hlinks : site.links u = [] := by simp [Site.links, hsite]
      obtain ⟨i1, u1, w1, c1, f1, ch1, _⟩ :=
        Run.listenForErrors_spec s.run ("failed to fetch " ++ u ++ ": " ++ err) h.run
      refine ⟨?_, rfl, w1⟩
      exact
        { run := i1
          url := u1.trans h.url
          resolvedNodup := hnodup
          resolvedSent := by
            intro v hv
            show v ∈ (s.run.listenForErrors _).urlChannel
            rw [ch1]
            rcases List.mem_append.1 hv with hv | hv
            · exact h.resolvedSent v hv
            · rw [List.mem_singleton.1 hv]; exact hsent
          completed := by
            show (s.run.listenForErrors _).c.Stats.completed =
              (((s.resolved ++ [u]).filter (fun u => site.ok u)).length : Int)
            rw [c1, h.completed]
            simp [List.filter_append, List.filter_cons, hok]
          failures := by
            show (s.run.listenForErrors _).c.Stats.failures =
              (((s.resolved ++ [u]).filter (fun u => !site.ok u)).length : Int)
            rw [f1, h.failures]
            simp [List.filter_append, List.filter_cons, hok]
          seedSent := by
            show seed ∈ (s.run.listenForErrors _).urlChannel
            rw [ch1]; exact h.seedSent
          reach := by
            intro v hv
            have hv1 : v ∈ (s.run.listenForErrors _).urlChannel := hv
            rw [ch1] at hv1
            exact h.reach v hv1
          closed := by
            intro a ha v hv
            show v ∈ (s.run.listenForErrors _).urlChannel
            rw [ch1]
            rcases List.mem_append.1 ha with ha | ha
            · exact h.closed a ha v hv
            · rw [List.mem_singleton.1 ha, hlinks] at hv
              simp at hv }
    | page allURLs internalURLs =>
      rw [hsite] at hd
      simp only [Option.some.injEq] at hd
      subst hd
      have hok : site.ok u = true := by simp [Site.ok, hsite]
      have hlinks : site.links u = internalURLs := by simp [Site.links, hsite]
      obtain ⟨i1, u1, w1, _, c1, f1, ch1⟩ :=
        Run.listenForPages_spec s.run
          { ParentURL := s.run.c.URL, URL := u
            AllURLs := allURLs, InternalURLs := internalURLs } h.run
      refine ⟨?_, rfl, w1⟩
      exact
        { run := i1
          url := u1.trans h.url
          resolvedNodup := hnodup
          resolvedSent := by
            intro v hv
            show v ∈ (s.run.listenForPages _).urlChannel
            rw [ch1]
            rcases List.mem_append.1 hv with hv | hv
            · exact Or.inl (h.resolvedSent v hv)
            · rw [List.mem_singleton.1 hv]; exact Or.inl hsent
          completed := by
            show (s.run.listenForPages _).c.Stats.completed =
              (((s.resolved ++ [u]).filter (fun u => site.ok u)).length : Int)
            rw [c1, h.completed]
            simp [List.filter_append, List.filter_cons, hok]
          failures := by
            show (s.run.listenForPages _).c.Stats.failures =
              (((s.resolved ++ [u]).filter (fun u => !site.ok u)).length : Int)
            rw [f1, h.failures]
            simp [List.filter_append, List.filter_cons, hok]
          seedSent := by
            show seed ∈ (s.run.listenForPages _).urlChannel
            rw [ch1]; exact Or.inl h.seedSent
          reach := by
            intro v hv
            have hv1 : v ∈ (s.run.listenForPages _).urlChannel := hv
            rw [ch1] at hv1
            rcases hv1 with hv1 | hv1
            · exact h.reach v hv1
            · exact Reach.link (h.reach u hsent) (by rw [hlinks]; exact hv1)
          closed := by
            intro a ha v hv
            show v ∈ (s.run.listenForPages _).urlChannel
            rw [ch1]
            rcases List.mem_append.1 ha with ha | ha
            · exact Or.inl (h.closed a ha v hv)
            · rw [List.mem_singleton.1 ha, hlinks] at hv
              exact Or.inr hv }
  · rw [if_neg hg] at hd
    exact absurd hd (by simp)

/-- A schedule keeps the bookkeeping and resolves its URLs in order. -/
theorem Pipeline.schedule_spec (site : Site) (seed : String) (us : List String)
    (s s1 : Pipeline) (h : s.Inv site seed) (hs : Pipeline.schedule site s us = some s1) :
    s1.Inv site seed ∧ s1.resolved = s.resolved ++ us ∧
    s1.run.c.Workers = s.run.c.Workers := by
  induction us generalizing s with
  | nil =>
    simp only [Pipeline.schedule, Option.some.injEq] at hs
    subst hs
    simp [h]
  | cons u rest ih =>
    unfold Pipeline.schedule at hs
    cases hd : s.deliver site u with
    | none => simp [hd] at hs
    | some s2 =>
      rw [hd] at hs
      obtain ⟨i2, r2, w2⟩ := Pipeline.deliver_spec site seed s s2 u h hd
      obtain ⟨i1, r1, w1⟩ := ih s2 i2 hs
      refine ⟨i1, ?_, w1.trans w2⟩
      rw [r1, r2]
      simp

/-- When the wait group is at zero, every URL sent has been resolved. -/
theorem Pipeline.Inv.resolved_perm {site : Site} {seed : String} {s : Pipeline}
    (h : s.Inv site seed) (hfin : s.finished = true) : s.resolved.Perm s.run.urlChannel := by
  have hwg : s.run.c.wg = 0 := by simpa [Pipeline.finished] using hfin
  have hlen : (s.run.urlChannel.length : Int) = s.resolved.length := by
    have h1 := h.run.wg
    have h2 := h.run.pending
    have h3 := h.run.total
    have h4 := h.completed
    have h5 := h.failures
    have h6 := length_filter_add_length_filter_not (fun u => site.ok u) s.resolved
    have h7 : ((s.resolved.filter (fun u => site.ok u)).length : Int)
        + ((s.resolved.filter (fun u => !site.ok u)).length : Int) = s.resolved.length := by
      exact_mod_cast h6
    linarith
  have hsub : s.resolved.Subperm s.run.urlChannel :=
    List.subperm_of_subset h.resolvedNodup h.resolvedSent
  exact hsub.perm_of_length_le (by omega)

/-- While the wait group is above zero, some URL sent is not resolved. -/
theorem Pipeline.Inv.waiting {site : Site} {seed : String} {s : Pipeline}
    (h : s.Inv site seed) (hfin : s.finished = false) :
    ∃ u, u ∈ s.run.urlChannel ∧ u ∉ s.resolved := by
  by_contra hno
  have hall : ∀ u ∈ s.run.urlChannel, u ∈ s.resolved := by
    intro u hu
    by_contra hu2
    exact hno ⟨u, hu, hu2⟩
  have h1 : s.run.urlChannel.length ≤ s.resolved.length :=
    (List.subperm_of_subset h.run.nodup hall).length_le
  have h2 : s.resolved.length ≤ s.run.urlChannel.length :=
    (List.subperm_of_subset h.resolvedNodup h.resolvedSent).length_le
  have h6 := length_filter_add_length_filter_not (fun u => site.ok u) s.resolved
  have h7 : ((s.resolved.filter (fun u => site.ok u)).length : Int)
      + ((s.resolved.filter (fun u => !site.ok u)).length : Int) = s.resolved.length := by
    exact_mod_cast h6
  have hwg : s.run.c.wg = 0 := by
    have e1 := h.run.wg
    have e2 := h.run.pending
    have e3 := h.run.total
    have e4 := h.completed
    have e5 := h.failures
    have e6 : (s.run.urlChannel.length : Int) = s.resolved.length := by omega
    linarith
  simp [Pipeline.finished, hwg] at hfin

/-- When the wait group is at zero, the URLs sent are the reachable ones. -/
theorem Pipeline.Inv.sent_iff_reach {site : Site} {seed : String} {s : Pipeline}
    (h : s.Inv site seed) (hfin : s.finished = true) (u : String) :
    u ∈ s.run.urlChannel ↔ Reach site seed u := by
  have perm := h.resolved_perm hfin
  constructor
  · exact h.reach u
  · intro hr
    induction hr with
    | seed => exact h.seedSent
    | link _ hv ih => exact h.closed _ (perm.mem_iff.2 ih) _ hv

/-- The URLs sent are never more than the reachable ones. -/
theorem Pipeline.Inv.sent_le {site : Site} {seed : String} {s : Pipeline}
    (h : s.Inv site seed) (hfinite : {u | Reach site seed u}.Finite) :
    s.run.urlChannel.length ≤ Set.ncard {u | Reach site seed u} := by
  have hcard : s.run.urlChannel.length = Set.ncard (s.run.urlChannel.toFinset : Set String) := by
    rw [Set.ncard_coe_Finset, List.toFinset_card_of_nodup h.run.nodup]
  rw [hcard]
  apply Set.ncard_le_ncard _ hfinite
  intro u hu
  exact h.reach u (by simpa using hu)

theorem Pipeline.deliver_isSome (site : Site) (s : Pipeline) (u : String)
    (hw : 0 < s.run.c.Workers) (hsent : u ∈ s.run.urlChannel) (hnew : u ∉ s.resolved) :
    ∃ s1, s.deliver site u = some s1 := by
  have hg : 0 < s.run.c.Workers ∧ s.resolved.count u < s.run.urlChannel.count u := by
    refine ⟨hw, ?_⟩
    rw [List.count_eq_zero.2 hnew]
    exact List.count_pos_iff.2 hsent
  unfold Pipeline.deliver
  rw [if_pos hg]
  cases site u with
  | failure err => exact ⟨_, rfl⟩
  | page allURLs internalURLs => exact ⟨_, rfl⟩

/-- With a worker and finitely many reachable URLs, the pipeline can always be
run until the wait group is at zero. -/
theorem Pipeline.Inv.completes {site : Site} {seed : String}
    (hfinite : {u | Reach site seed u}.Finite) (n : Nat) (s : Pipeline)
    (h : s.Inv site seed) (hw : 0 < s.run.c.Workers)
    (hn : Set.ncard {u | Reach site seed u} - s.resolved.length ≤ n) :
    ∃ rest s1, Pipeline.schedule site s rest = some s1 ∧ s1.finished = true := by
  induction n generalizing s with
  | zero =>
    cases hfin : s.finished with
    | true => exact ⟨[], s, rfl, hfin⟩
    | false =>
      obtain ⟨u, hu, hnew⟩ := h.waiting hfin
      have h1 : (u :: s.resolved).length ≤ s.run.urlChannel.length := by
        apply List.Subperm.length_le
        apply List.subperm_of_subset (List.nodup_cons.2 ⟨hnew, h.resolvedNodup⟩)
        intro v hv
        rcases List.mem_cons.1 hv with hv | hv
        · rw [hv]; exact hu
        · exact h.resolvedSent v hv
      have h2 := h.sent_le hfinite
      simp only [List.length_cons] at h1
      omega
  | succ n ih =>
    cases hfin : s.finished with
    | true => exact ⟨[], s, rfl, hfin⟩
    | false =>
      obtain ⟨u, hu, hnew⟩ := h.waiting hfin
      obtain ⟨s2, hd⟩ := Pipeline.deliver_isSome site s u hw hu hnew
      obtain ⟨i2, r2, w2⟩ := Pipeline.deliver_spec site seed s s2 u h hd
      have hn2 : Set.ncard {u | Reach site seed u} - s2.resolved.length ≤ n := by
        rw [r2]
        simp only [List.length_append, List.length_singleton]
        omega
      obtain ⟨rest, s1, hs1, hf1⟩ := ih s2 i2 (by rw [w2]; exact hw) hn2
      refine ⟨u :: rest, s1, ?_, hf1⟩
      simp only [Pipeline.schedule, hd]
      exact hs1

/-! ## Claims on the crawl of a site -/

/-- C3: for every site and seed, when `Crawl` on a new crawler finishes (the
wait group is back at zero), whatever the order in which the URLs went through
the pipeline, the nodes of the graph are exactly the URLs reachable from the
seed through internal links of successfully fetched pages, `Completed()` is
the number of reachable URLs whose fetch succeeds and `Failures()` the number
of those whose fetch fails. With at least one worker and finitely many
reachable URLs, no run resolves more URLs than are reachable, and every run
can be continued until `Crawl` finishes. -/
theorem crawl_covers_reachable (site : Site) (url : String) (workers timeout now : Int) :
    (∀ (schedule : List String) (s : Pipeline),
      Pipeline.schedule site ((NewCrawler url workers timeout).start now) schedule = some s →
      s.finished = true →
        (∀ u, s.run.c.Graph.HasNode u = true ↔
          Reach site (NewCrawler url workers timeout).URL u) ∧
        s.run.c.Stats.Completed =
          Set.ncard {u | Reach site (NewCrawler url workers timeout).URL u ∧ site.ok u = true} ∧
        s.run.c.Stats.Failures =
          Set.ncard {u | Reach site (NewCrawler url workers timeout).URL u ∧ site.ok u = false} ∧
        {u | Reach site (NewCrawler url workers timeout).URL u}.Finite) ∧
    (0 < workers → {u | Reach site (NewCrawler url workers timeout).URL u}.Finite →
      ∀ (schedule : List String) (s : Pipeline),
        Pipeline.schedule site ((NewCrawler url workers timeout).start now) schedule = some s →
        schedule.length ≤ Set.ncard {u | Reach site (NewCrawler url workers timeout).URL u} ∧
        ∃ rest s1, Pipeline.schedule site s rest = some s1 ∧ s1.finished = true) := by
  have h0 := Crawler.start_inv site url workers timeout now
  constructor
  · intro schedule s hrun hfin
    obtain ⟨h, _, _⟩ := Pipeline.schedule_spec site _ schedule _ s h0 hrun
    have perm := h.resolved_perm hfin
    have hmem := h.sent_iff_reach hfin
    have hset : ∀ f : String → Bool,
        Set.ncard {u | Reach site (NewCrawler url workers timeout).URL u ∧ f u = true} =
          (s.resolved.filter f).length := by
      intro f
      have e1 : {u | Reach site (NewCrawler url workers timeout).URL u ∧ f u = true} =
          ((s.run.urlChannel.filter f).toFinset : Set String) := by
        ext u
        simp [hmem u]
      rw [e1, Set.ncard_coe_Finset, List.toFinset_card_of_nodup (h.run.nodup.filter f)]
      exact ((perm.filter f).length_eq).symm
    refine ⟨?_, ?_, ?_, ?_⟩
    · intro u
      rw [Graph.hasNode_iff_mem, h.run.keys]
      exact hmem u
    · rw [hset (fun u => site.ok u)]
      exact h.completed
    · have e2 : {u | Reach site (NewCrawler url workers timeout).URL u ∧ site.ok u = false} =
          {u | Reach site (NewCrawler url workers timeout).URL u ∧ (!site.ok u) = true} := by
        ext u
        simp
      rw [e2, hset (fun u => !site.ok u)]
      exact h.failures
    · have e3 : {u | Reach site (NewCrawler url workers timeout).URL u} =
          (s.run.urlChannel.toFinset : Set String) := by
        ext u
        simp [hmem u]
      rw [e3]
      exact Finset.finite_toSet _
  · intro hw hfinite schedule s hrun
    obtain ⟨h, hres, hwork⟩ := Pipeline.schedule_spec site _ schedule _ s h0 hrun
    have hw1 : 0 < s.run.c.Workers := by
      rw [hwork]
      exact hw
    constructor
    · have h1 : s.resolved.length ≤ s.run.urlChannel.length :=
        (List.subperm_of_subset h.resolvedNodup h.resolvedSent).length_le
      have h2 := h.sent_le hfinite
      have h3 : s.resolved.length = schedule.length := by
        rw [hres]
        simp [Crawler.start]
      omega
    · exact Pipeline.Inv.completes hfinite _ s h hw1 (le_refl _)

/-- Witness of C3 on the three-page mock site: the crawl finishes with the
three pages completed and no failure, which are the numbers of reachable URLs
whose fetch succeeds and fails; the loans page is a node, being reachable. -/
theorem crawl_covers_reachable_witness :
    mockCrawl.map (fun s => s.finished) = some true ∧
    mockCrawl.map (fun s => s.run.c.Stats.Completed) = some 3 ∧
    mockCrawl.map (fun s => s.run.c.Stats.Failures) = some 0 ∧
    Set.ncard {u | Reach mockSite "https://example.com" u ∧ mockSite.ok u = true} = 3 ∧
    Set.ncard {u | Reach mockSite "https://example.com" u ∧ mockSite.ok u = false} = 0 ∧
    Reach mockSite "https://example.com" "https://example.com/loans" ∧
    (∃ rest s1, Pipeline.schedule mockSite ((NewCrawler "https://example.com" 10 20).start 1)
      rest = some s1 ∧ s1.finished = true) := by
  have hfinished : mockCrawl.map (fun s => s.finished) = some true := by decide
  have hcompleted : mockCrawl.map (fun s => s.run.c.Stats.Completed) = some 3 := by decide
  have hfailures : mockCrawl.map (fun s => s.run.c.Stats.Failures) = some 0 := by decide
  have hnode : mockCrawl.map (fun s => s.run.c.Graph.HasNode "https://example.com/loans")
      = some true := by decide
  have hsome : ∃ s, mockCrawl = some s := by
    cases h : mockCrawl with
    | none => simp [h] at hfinished
    | some s => exact ⟨s, rfl⟩
  obtain ⟨s, hs⟩ := hsome
  refine ⟨hfinished, hcompleted, hfailures, ?_⟩
  rw [hs] at hfinished hcompleted hfailures hnode
  simp only [Option.map_some', Option.some.injEq] at hfinished hcompleted hfailures hnode
  have key := crawl_covers_reachable mockSite "https://example.com" 10 20 1
  obtain ⟨hnodes, hc, hf, hfinite⟩ := key.1 _ s hs hfinished
  have hurl : (NewCrawler "https://example.com" 10 20).URL = "https://example.com" := by
    decide
  rw [hurl] at hnodes hc hf hfinite
  have hlater := (key.2 (by decide) (by rw [hurl]; exact hfinite) [] _ rfl).2
  refine ⟨?_, ?_, (hnodes _).1 hnode, hlater⟩
  · rw [hcompleted] at hc
    exact_mod_cast hc.symm
  · rw [hfailures] at hf
    exact_mod_cast hf.symm

/-! ## Lemmas on strings -/

theorem slash_data : ("/" : String).data = ['/'] := rfl

theorem string_data_ne_nil (s : String) (h : s ≠ "") : s.data ≠ [] := by
  intro hd
  exact h (String.ext hd)

theorem endsWithSlash_iff (s : String) : endsWithSlash s = true ↔ ∃ pre, s = pre ++ "/" := by
  unfold endsWithSlash
  rw [decide_eq_true_iff, List.getLast?_eq_some_iff]
  constructor
  · rintro ⟨ys, hys⟩
    exact ⟨String.mk ys, String.ext (by rw [hys, String.data_append, slash_data])⟩
  · rintro ⟨pre, hpre⟩
    exact ⟨pre.data, by rw [hpre, String.data_append, slash_data]⟩

theorem endsWithSlash_append_slash (s : String) : endsWithSlash (s ++ "/") = true :=
  (endsWithSlash_iff _).2 ⟨s, rfl⟩

theorem endsWithSlash_append (a s : String) (hs : s ≠ "") :
    endsWithSlash (a ++ s) = endsWithSlash s := by
  have hne := string_data_ne_nil s hs
  unfold endsWithSlash
  rw [String.data_append, List.getLast?_append]
  cases hl : s.data.getLast? with
  | none => exact absurd (List.getLast?_eq_none_iff.1 hl) hne
  | some c => simp

theorem startsWithSlash_slash_append (s : String) : startsWithSlash ("/" ++ s) = true := by
  simp [startsWithSlash, String.data_append, slash_data]

theorem startsWithSlash_append (u s : String) (hu : u ≠ "") :
    startsWithSlash (u ++ s) = startsWithSlash u := by
  have hne := string_data_ne_nil u hu
  unfold startsWithSlash
  rw [String.data_append]
  cases hd : u.data with
  | nil => exact absurd hd hne
  | cons c rest => simp

theorem dropLastByte_append_slash (s : String) : dropLastByte (s ++ "/") = s := by
  apply String.ext
  simp [dropLastByte, String.data_append, slash_data]

theorem dropLastByte_append_self (s : String) (h : endsWithSlash s = true) :
    dropLastByte s ++ "/" = s := by
  obtain ⟨pre, hpre⟩ := (endsWithSlash_iff s).1 h
  rw [hpre, dropLastByte_append_slash]

theorem endsWithSlash_dropLastByte (s : String) (h : endsWithSlash s = true) :
    endsWithSlash (dropLastByte s) = true ↔ ∃ pre, s = pre ++ "//" := by
  obtain ⟨body, hbody⟩ := (endsWithSlash_iff s).1 h
  rw [hbody, dropLastByte_append_slash, endsWithSlash_iff]
  constructor
  · rintro ⟨pre, hpre⟩
    refine ⟨pre, ?_⟩
    rw [hpre, String.append_assoc]
    rfl
  · rintro ⟨pre, hpre⟩
    refine ⟨pre, ?_⟩
    have hd : (body ++ "/").data = (pre ++ "//").data := by rw [hpre]
    have hsl : ("//" : String).data = ['/', '/'] := rfl
    rw [String.data_append, String.data_append, slash_data, hsl] at hd
    apply String.ext
    rw [String.data_append, slash_data]
    have h2 : body.data ++ ['/'] = (pre.data ++ ['/']) ++ ['/'] := by
      rw [hd]; simp
    exact List.append_cancel_right h2

theorem not_endsWithSlash_of_double (s : String) (h : endsWithSlash s = false) :
    ¬ ∃ pre, s = pre ++ "//" := by
  rintro ⟨pre, hpre⟩
  have : endsWithSlash s = true := by
    rw [endsWithSlash_iff]
    refine ⟨pre ++ "/", ?_⟩
    rw [hpre, String.append_assoc]
    rfl
  rw [h] at this
  exact Bool.false_ne_true this

/-- What `normalizeURL` returns, in terms of the URL once a relative link has
been put behind the parent URL. -/
theorem Page.normalizeURL_eq (p : Page) (url : String) :
    p.normalizeURL url =
      if endsWithSlash (if startsWithSlash url then p.ParentURL ++ url else url) then
        dropLastByte (if startsWithSlash url then p.ParentURL ++ url else url)
      else (if startsWithSlash url then p.ParentURL ++ url else url) := rfl

/-! ## Lemmas on ordered-unique lists -/

theorem mem_firstOccurrences (l : List String) (x : String) :
    x ∈ firstOccurrences l ↔ x ∈ l := by
  induction l with
  | nil => simp [firstOccurrences]
  | cons a rest ih =>
    simp only [firstOccurrences, List.mem_cons, List.mem_filter, ih, decide_eq_true_eq]
    by_cases h : x = a
    · simp [h]
    · simp [h]

theorem nodup_firstOccurrences (l : List String) : (firstOccurrences l).Nodup := by
  induction l with
  | nil => simp [firstOccurrences]
  | cons a rest ih =>
    simp only [firstOccurrences, List.nodup_cons]
    refine ⟨?_, ih.filter _⟩
    simp [List.mem_filter]

theorem firstOccurrences_filter (q : String → Bool) (l : List String) :
    firstOccurrences (l.filter q) = (firstOccurrences l).filter q := by
  induction l with
  | nil => simp [firstOccurrences]
  | cons a rest ih =>
    by_cases hq : q a = true
    · simp only [List.filter_cons, hq, if_true, firstOccurrences, ih, List.filter_filter]
      congr 1
      apply List.filter_congr
      intro x _
      exact Bool.and_comm _ _
    · simp only [List.filter_cons, hq, firstOccurrences, List.filter_filter]
      simp only [Bool.false_eq_true, if_false]
      rw [ih]
      apply List.filter_congr
      intro x _
      by_cases hx : x = a
      · subst hx; simp [hq]
      · simp [hx]

theorem pairwise_firstOccurrences (l : List String) :
    (firstOccurrences l).Pairwise (fun x y => l.indexOf x < l.indexOf y) := by
  induction l with
  | nil => simp [firstOccurrences]
  | cons a rest ih =>
    simp only [firstOccurrences, List.pairwise_cons]
    constructor
    · intro y hy
      have hya : y ≠ a := by simpa using (List.mem_filter.1 hy).2
      rw [List.indexOf_cons_self, List.indexOf_cons_ne _ (Ne.symm hya)]
      exact Nat.succ_pos _
    · refine List.Pairwise.imp_of_mem ?_ (ih.filter _)
      intro x y hx hy hxy
      have hxa : x ≠ a := by simpa using (List.mem_filter.1 hx).2
      have hya : y ≠ a := by simpa using (List.mem_filter.1 hy).2
      rw [List.indexOf_cons_ne _ (Ne.symm hxa), List.indexOf_cons_ne _ (Ne.symm hya)]
      exact Nat.succ_lt_succ hxy

theorem foldl_pushNew (l acc : List String) :
    l.foldl pushNew acc = acc ++ (firstOccurrences l).filter (fun x => decide (x ∉ acc)) := by
  induction l generalizing acc with
  | nil => simp [firstOccurrences]
  | cons a rest ih =>
    simp only [List.foldl_cons, firstOccurrences]
    by_cases ha : a ∈ acc
    · have hp : pushNew acc a = acc := by simp [pushNew, ha]
      rw [hp, ih acc, List.filter_cons]
      simp only [ha, not_true_eq_false, decide_False, Bool.false_eq_true, if_false,
        List.filter_filter]
      congr 1
      apply List.filter_congr
      intro x _
      by_cases hx : x = a
      · subst hx; simp [ha]
      · simp [hx]
    · have hp : pushNew acc a = acc ++ [a] := by simp [pushNew, ha]
      rw [hp, ih (acc ++ [a]), List.filter_cons]
      simp only [ha, not_false_eq_true, decide_True, if_true, List.filter_filter,
        List.append_assoc, List.singleton_append]
      congr 2
      apply List.filter_congr
      intro x _
      by_cases hx : x = a
      · subst hx; simp
      · simp [hx]

theorem foldl_pushNew_nil (l : List String) : l.foldl pushNew [] = firstOccurrences l := by
  rw [foldl_pushNew]
  simp

/-! ## Lemmas on `fetchLinks` -/

theorem StringSet.has_add (s : StringSet) (k x : String) :
    (s.Add k).Has x = (s.Has x || decide (x = k)) := by
  by_cases hx : x = k
  · subst hx
    simp [StringSet.Add, StringSet.Has, mapGet_mapSet_self]
  · simp [StringSet.Add, StringSet.Has, mapGet_mapSet_other _ _ _ _ hx, hx]

theorem StringSet.has_new (x : String) : NewSet.Has x = false := by
  simp [NewSet, StringSet.Has, mapGet]

theorem mem_pushNew (acc : List String) (x y : String) :
    y ∈ pushNew acc x ↔ y ∈ acc ∨ y = x := by
  unfold pushNew
  by_cases h : x ∈ acc
  · simp only [h, if_true]
    constructor
    · exact Or.inl
    · rintro (h1 | h1)
      · exact h1
      · rw [h1]; exact h
  · simp [h]

/-- Appending to a list and adding to its cache, when the cache lacks the URL,
is `pushNew`, and keeps the cache in step with the list. -/
theorem StringSet.push (cache : StringSet) (acc : List String) (url : String)
    (h : ∀ x, cache.Has x = true ↔ x ∈ acc) :
    (if (!cache.Has url) = true then acc ++ [url] else acc) = pushNew acc url ∧
    (∀ x, (if (!cache.Has url) = true then cache.Add url else cache).Has x = true ↔
      x ∈ pushNew acc url) := by
  by_cases hu : url ∈ acc
  · have hc : cache.Has url = true := (h url).2 hu
    simp only [hc, Bool.not_true, Bool.false_eq_true, if_false]
    refine ⟨by simp [pushNew, hu], fun x => ?_⟩
    rw [h x, mem_pushNew]
    constructor
    · exact Or.inl
    · rintro (h1 | h1)
      · exact h1
      · rw [h1]; exact hu
  · have hc : cache.Has url = false := by
      cases hb : cache.Has url with
      | false => rfl
      | true => exact absurd ((h url).1 hb) hu
    simp only [hc, Bool.not_false, if_true]
    refine ⟨by simp [pushNew, hu], fun x => ?_⟩
    rw [StringSet.has_add, mem_pushNew, Bool.or_eq_true, h x, decide_eq_true_eq]

/-- The first half of the loop body of `fetchLinks`. -/
theorem Links.pushAll_spec (st : Links) (url : String) (h : st.Coherent) :
    (if (!st.allURLsCache.Has url) = true then
        { st with allURLs := st.allURLs ++ [url], allURLsCache := st.allURLsCache.Add url }
      else st).allURLs = pushNew st.allURLs url ∧
    (if (!st.allURLsCache.Has url) = true then
        { st with allURLs := st.allURLs ++ [url], allURLsCache := st.allURLsCache.Add url }
      else st).internalURLs = st.internalURLs ∧
    (if (!st.allURLsCache.Has url) = true then
        { st with allURLs := st.allURLs ++ [url], allURLsCache := st.allURLsCache.Add url }
      else st).Coherent := by
  obtain ⟨a1, a2⟩ := StringSet.push st.allURLsCache st.allURLs url h.1
  by_cases hc : (!st.allURLsCache.Has url) = true
  · rw [if_pos hc] at a1 a2 ⊢
    exact ⟨a1, rfl, fun x => (a2 x).trans (by rw [a1]), h.2⟩
  · rw [if_neg hc] at a1 a2 ⊢
    exact ⟨a1, rfl, h⟩

/-- The second half of the loop body of `fetchLinks`. -/
theorem Links.pushInternal_spec (st : Links) (url : String) (h : st.Coherent) :
    (if (!st.internalURLsCache.Has url) = true then
        { st with
          internalURLs := st.internalURLs ++ [url]
          internalURLsCache := st.internalURLsCache.Add url }
      else st).allURLs = st.allURLs ∧
    (if (!st.internalURLsCache.Has url) = true then
        { st with
          internalURLs := st.internalURLs ++ [url]
          internalURLsCache := st.internalURLsCache.Add url }
      else st).internalURLs = pushNew st.internalURLs url ∧
    (if (!st.internalURLsCache.Has url) = true then
        { st with
          internalURLs := st.internalURLs ++ [url]
          internalURLsCache := st.internalURLsCache.Add url }
      else st).Coherent := by
  obtain ⟨i1, i2⟩ := StringSet.push st.internalURLsCache st.internalURLs url h.2
  by_cases hc : (!st.internalURLsCache.Has url) = true
  · rw [if_pos hc] at i1 i2 ⊢
    exact ⟨rfl, i1, h.1, fun x => (i2 x).trans (by rw [i1])⟩
  · rw [if_neg hc] at i1 i2 ⊢
    exact ⟨rfl, i1, h⟩

/-- What `fetchLinks` does on one anchor that has an `href`. -/
theorem Page.eachAnchor_some (parse : String → Except String String) (p : Page) (st : Links)
    (raw : String) (h : st.Coherent) :
    (p.eachAnchor parse st (some raw)).allURLs = pushNew st.allURLs (p.normalizeURL raw) ∧
    (p.eachAnchor parse st (some raw)).internalURLs =
      (if p.internal parse (p.normalizeURL raw) = true then
        pushNew st.internalURLs (p.normalizeURL raw)
      else st.internalURLs) ∧
    (p.eachAnchor parse st (some raw)).Coherent := by
  obtain ⟨a1, a2, a3⟩ := Links.pushAll_spec st (p.normalizeURL raw) h
  obtain ⟨i1, i2, i3⟩ := Links.pushInternal_spec _ (p.normalizeURL raw) a3
  unfold Page.internal
  rcases hres : p.isURLSameDomainAsParent parse (p.normalizeURL raw) with ⟨b, e⟩
  cases e with
  | some err =>
    simp only [Page.eachAnchor, hres]
    exact ⟨a1, by rw [a2]; simp, a3⟩
  | none =>
    cases b with
    | false =>
      simp only [Page.eachAnchor, hres]
      exact ⟨a1, by rw [a2]; simp, a3⟩
    | true =>
      simp only [Page.eachAnchor, hres]
      refine ⟨i1.trans a1, ?_, i3⟩
      rw [i2, a2]
      simp

/-- The lists that the loop of `fetchLinks` builds. -/
theorem Page.foldl_eachAnchor (parse : String → Except String String) (p : Page)
    (anchors : List (Option String)) (st : Links) (h : st.Coherent) :
    (anchors.foldl (p.eachAnchor parse) st).allURLs =
      (p.normalized anchors).foldl pushNew st.allURLs ∧
    (anchors.foldl (p.eachAnchor parse) st).internalURLs =
      ((p.normalized anchors).filter (p.internal parse)).foldl pushNew st.internalURLs := by
  induction anchors generalizing st with
  | nil => simp [Page.normalized]
  | cons href rest ih =>
    cases href with
    | none =>
      have hst : p.eachAnchor parse st none = st := rfl
      simpa [Page.normalized, hst] using ih st h
    | some raw =>
      obtain ⟨e1, e2, e3⟩ := Page.eachAnchor_some parse p st raw h
      obtain ⟨r1, r2⟩ := ih _ e3
      simp only [List.foldl_cons]
      rw [r1, r2, e1, e2]
      have hn : p.normalized (some raw :: rest) = p.normalizeURL raw :: p.normalized rest := by
        simp [Page.normalized]
      rw [hn]
      refine ⟨rfl, ?_⟩
      by_cases hi : p.internal parse (p.normalizeURL raw) = true
      · simp [List.filter_cons, hi]
      · simp [List.filter_cons, hi]

/-- The two link lists of a page are the ordered-unique lists of the
normalized URLs and of the internal ones among them. -/
theorem Page.fetchLinks_lists (parse : String → Except String String) (p : Page)
    (anchors : List (Option String)) :
    (p.fetchLinks parse anchors).AllURLs = firstOccurrences (p.normalized anchors) ∧
    (p.fetchLinks parse anchors).InternalURLs =
      firstOccurrences ((p.normalized anchors).filter (p.internal parse)) ∧
    (p.fetchLinks parse anchors).ParentURL = p.ParentURL ∧
    (p.fetchLinks parse anchors).URL = p.URL := by
  have hc : Links.Coherent
      { allURLs := [], internalURLs := [], allURLsCache := NewSet, internalURLsCache := NewSet } :=
    ⟨fun x => by simp [StringSet.has_new], fun x => by simp [StringSet.has_new]⟩
  obtain ⟨h1, h2⟩ := Page.foldl_eachAnchor parse p anchors _ hc
  refine ⟨?_, ?_, rfl, rfl⟩
  · show (anchors.foldl (p.eachAnchor parse) _).allURLs = _
    rw [h1, foldl_pushNew_nil]
  · show (anchors.foldl (p.eachAnchor parse) _).internalURLs = _
    rw [h2, foldl_pushNew_nil]

theorem Page.mem_normalized (p : Page) (anchors : List (Option String)) (x : String) :
    x ∈ p.normalized anchors ↔ ∃ raw, some raw ∈ anchors ∧ p.normalizeURL raw = x := by
  simp [Page.normalized]

theorem Page.internal_iff (parse : String → Except String String) (p : Page) (x : String) :
    p.internal parse x = true ↔ ∃ host, parse p.ParentURL = .ok host ∧ parse x = .ok host := by
  unfold Page.internal Page.isURLSameDomainAsParent
  cases hp : parse p.ParentURL with
  | error e => simp
  | ok parentHost =>
    cases hx : parse x with
    | error e => simp
    | ok host =>
      by_cases hh : parentHost = host
      · simp [hh]
      · simp [hh, Ne.symm hh]

/-! ## Claims on the time fields -/

/-- A start time that is set (not the zero time) is not changed by
`RecordStartTime`, and a recorded duration other than zero is not changed by
`RecordTotalDuration`, at any clock reading. -/
theorem Stats.nonzero_write_kept (s : Stats) (later : Int) :
    (s.startTime ≠ 0 → s.RecordStartTime later = s) ∧
    (s.duration ≠ 0 → s.RecordTotalDuration later = s) := by
  constructor
  · intro ht
    simp [Stats.RecordStartTime, ht]
  · intro ht
    unfold Stats.RecordTotalDuration
    split
    · rfl
    · simp [ht]

/-- C13: the code at the failing inputs. `RecordStartTime` at a clock reading
`start` sets the start time; `RecordTotalDuration` while the clock still reads
`start` records the duration 0, which `TestRecordTotalDuration` requires not
to happen; the call at any other reading `later` then finds the duration
unset and records `later - start`: the first recorded duration is not kept. -/
theorem first_write_lost_at_zero (start later : Int) (hstart : start ≠ 0)
    (hlater : later ≠ start) :
    (NewStats.RecordStartTime start).startTime = start ∧
    ((NewStats.RecordStartTime start).RecordTotalDuration start).Duration = 0 ∧
    (((NewStats.RecordStartTime start).RecordTotalDuration start).RecordTotalDuration
      later).Duration = later - start ∧
    (((NewStats.RecordStartTime start).RecordTotalDuration start).RecordTotalDuration
      later).Duration ≠
      ((NewStats.RecordStartTime start).RecordTotalDuration start).Duration := by
  have h1 : NewStats.RecordStartTime start = { NewStats with startTime := start } := by
    simp [Stats.RecordStartTime, NewStats]
  have h2 : (NewStats.RecordStartTime start).RecordTotalDuration start =
      { NewStats with startTime := start } := by
    rw [h1]
    simp [Stats.RecordTotalDuration, NewStats, hstart]
  have h3 : ((NewStats.RecordStartTime start).RecordTotalDuration start).RecordTotalDuration
      later = { NewStats with startTime := start, duration := later - start } := by
    rw [h2]
    simp [Stats.RecordTotalDuration, NewStats, hstart]
  have hne : later - start ≠ 0 := sub_ne_zero.2 hlater
  rw [h3, h2, h1]
  exact ⟨rfl, rfl, rfl, hne⟩

/-- Witness of C13: the start time is set at the reading 5; the call of
`RecordTotalDuration` at the reading 5 records 0 and the call at the reading 9
changes the duration to 4. -/
theorem first_write_lost_at_zero_witness :
    ((NewStats.RecordStartTime 5).RecordTotalDuration 5).Duration = 0 ∧
    (((NewStats.RecordStartTime 5).RecordTotalDuration 5).RecordTotalDuration 9).Duration = 4 ∧
    (((NewStats.RecordStartTime 5).RecordTotalDuration 5).RecordTotalDuration 9).Duration ≠
      ((NewStats.RecordStartTime 5).RecordTotalDuration 5).Duration :=
  ⟨(first_write_lost_at_zero 5 9 (by decide) (by decide)).2.1,
    (first_write_lost_at_zero 5 9 (by decide) (by decide)).2.2.1,
    (first_write_lost_at_zero 5 9 (by decide) (by decide)).2.2.2⟩

/-! ## Claims on the links of a page -/

/-- C14, as amended: `normalizeURL` cuts off one trailing slash, so its result
ends with `/` exactly when the URL, once a relative link has been put behind
the parent URL, ends with `//`; hence an element of `AllURLs` or of
`InternalURLs` ends with `/` only if some `href` of the document is of that
kind. -/
theorem normalizeURL_one_slash (parse : String → Except String String) (p : Page) :
    (∀ href, endsWithSlash (p.normalizeURL href) = true ↔
      ∃ pre, (if startsWithSlash href then p.ParentURL ++ href else href) = pre ++ "//") ∧
    (∀ (anchors : List (Option String)) (x : String),
      (x ∈ (p.fetchLinks parse anchors).AllURLs ∨ x ∈ (p.fetchLinks parse anchors).InternalURLs) →
      endsWithSlash x = true →
      ∃ href pre, some href ∈ anchors ∧
        (if startsWithSlash href then p.ParentURL ++ href else href) = pre ++ "//") := by
  have one : ∀ href, endsWithSlash (p.normalizeURL href) = true ↔
      ∃ pre, (if startsWithSlash href then p.ParentURL ++ href else href) = pre ++ "//" := by
    intro href
    rw [Page.normalizeURL_eq]
    by_cases he : endsWithSlash (if startsWithSlash href then p.ParentURL ++ href else href) = true
    · rw [if_pos he]
      exact endsWithSlash_dropLastByte _ he
    · rw [if_neg he]
      have hf : endsWithSlash (if startsWithSlash href then p.ParentURL ++ href else href)
          = false := by simpa using he
      constructor
      · intro h
        rw [hf] at h
        exact absurd h Bool.false_ne_true
      · intro h
        exact absurd h (not_endsWithSlash_of_double _ hf)
  refine ⟨one, ?_⟩
  intro anchors x hx hslash
  obtain ⟨hall, hint, _, _⟩ := Page.fetchLinks_lists parse p anchors
  have hn : x ∈ p.normalized anchors := by
    rcases hx with hx | hx
    · rw [hall, mem_firstOccurrences] at hx
      exact hx
    · rw [hint, mem_firstOccurrences] at hx
      exact (List.mem_filter.1 hx).1
  obtain ⟨raw, hraw, heq⟩ := (Page.mem_normalized p anchors x).1 hn
  rw [← heq] at hslash
  obtain ⟨pre, hpre⟩ := (one raw).1 hslash
  exact ⟨raw, pre, hraw, hpre⟩

/-- Witness of C14: `/cards/` loses its slash, and `/cards//` keeps one. -/
theorem normalizeURL_one_slash_witness :
    endsWithSlash (Page.normalizeURL cardsPage "/cards//") = true ∧
    endsWithSlash (Page.normalizeURL cardsPage "/cards/") = false ∧
    ∃ href pre, some href ∈ [some "/cards//"] ∧
      (if startsWithSlash href then cardsPage.ParentURL ++ href else href) = pre ++ "//" :=
  ⟨by decide, by decide,
    (normalizeURL_one_slash simpleHost cardsPage).2 [some "/cards//"]
      "https://example.com/cards/" (Or.inl (by decide)) (by decide)⟩

/-- Counterexample to C14 as stated: the result for the `href` `/cards//`
ends with a slash, and so does an element of `AllURLs` and of `InternalURLs`
of a page with that anchor. -/
theorem normalizeURL_one_slash_counterexample :
    Page.normalizeURL cardsPage "/cards//" = "https://example.com/cards/" ∧
    endsWithSlash (Page.normalizeURL cardsPage "/cards//") = true ∧
    (NewPage simpleHost "https://example.com" "https://example.com/loans"
      [some "/cards//"]).AllURLs = ["https://example.com/cards/"] ∧
    (NewPage simpleHost "https://example.com" "https://example.com/loans"
      [some "/cards//"]).InternalURLs = ["https://example.com/cards/"] := by
  decide

/-- C15, as amended: for every parent URL `p` and every non-empty `s` that does
not end with `/`, `normalizeURL("/" ++ s) == p ++ "/" ++ s`, while
`normalizeURL("/") == p`; and for every non-empty `u` that does not start with
`/`, `normalizeURL(u ++ "/") == u` and, when `u` does not end with `/`,
`normalizeURL(u) == u`. -/
theorem normalizeURL_relative_absolute (p : Page) :
    (∀ s, s ≠ "" → endsWithSlash s = false →
      p.normalizeURL ("/" ++ s) = p.ParentURL ++ "/" ++ s) ∧
    p.normalizeURL "/" = p.ParentURL ∧
    (∀ u, u ≠ "" → startsWithSlash u = false →
      p.normalizeURL (u ++ "/") = u ∧ (endsWithSlash u = false → p.normalizeURL u = u)) := by
  refine ⟨?_, ?_, ?_⟩
  · intro s hs hend
    have hne : "/" ++ s ≠ "" := by
      intro h
      have hd := congrArg String.data h
      rw [String.data_append, slash_data] at hd
      exact absurd hd (by simp)
    rw [Page.normalizeURL_eq, startsWithSlash_slash_append]
    simp only [if_true]
    have he : endsWithSlash (p.ParentURL ++ ("/" ++ s)) = false := by
      rw [endsWithSlash_append _ _ hne, endsWithSlash_append _ _ hs, hend]
    rw [he]
    simp only [Bool.false_eq_true, if_false]
    rw [String.append_assoc]
  · have hstart : startsWithSlash "/" = true := by decide
    rw [Page.normalizeURL_eq, hstart]
    simp only [if_true]
    rw [endsWithSlash_append_slash]
    simp only [if_true]
    exact dropLastByte_append_slash _
  · intro u hu hstart
    constructor
    · rw [Page.normalizeURL_eq, startsWithSlash_append u "/" hu, hstart]
      simp only [Bool.false_eq_true, if_false]
      rw [endsWithSlash_append_slash]
      simp only [if_true]
      exact dropLastByte_append_slash u
    · intro hend
      rw [Page.normalizeURL_eq, hstart]
      simp only [Bool.false_eq_true, if_false]
      rw [hend]
      simp

/-- Witness of C15: the two cases of `TestNormalizeURL`. -/
theorem normalizeURL_relative_absolute_witness :
    Page.normalizeURL cardsPage ("/" ++ "cards") = cardsPage.ParentURL ++ "/" ++ "cards" ∧
    Page.normalizeURL cardsPage ("https://example.com/help" ++ "/") = "https://example.com/help" :=
  ⟨(normalizeURL_relative_absolute cardsPage).1 "cards" (by decide) (by decide),
    ((normalizeURL_relative_absolute cardsPage).2.2 "https://example.com/help"
      (by decide) (by decide)).1⟩

/-- Counterexample to C15 as stated: the empty string does not end with `/`,
and `normalizeURL("/" ++ "")` is the parent URL, not the parent URL followed
by `/`. -/
theorem normalizeURL_relative_absolute_counterexample :
    endsWithSlash "" = false ∧
    Page.normalizeURL cardsPage ("/" ++ "") = "https://example.com" ∧
    Page.normalizeURL cardsPage ("/" ++ "") ≠ cardsPage.ParentURL ++ "/" ++ "" := by
  decide

/-- C16: the list `AllURLs` that `fetchLinks` builds holds every distinct
normalized `href` of the document exactly once, in the order of the first
occurrences, and `InternalURLs` holds every distinct normalized `href` that
the domain check classifies as internal exactly once, in the order of the
first occurrences; neither list has a duplicate. -/
theorem links_ordered_unique (parse : String → Except String String) (p : Page)
    (anchors : List (Option String)) :
    (p.fetchLinks parse anchors).AllURLs = firstOccurrences (p.normalized anchors) ∧
    (p.fetchLinks parse anchors).InternalURLs =
      firstOccurrences ((p.normalized anchors).filter (p.internal parse)) ∧
    (∀ x, (p.fetchLinks parse anchors).AllURLs.count x =
      if x ∈ p.normalized anchors then 1 else 0) ∧
    (∀ x, (p.fetchLinks parse anchors).InternalURLs.count x =
      if x ∈ p.normalized anchors ∧ p.internal parse x = true then 1 else 0) ∧
    (p.fetchLinks parse anchors).AllURLs.Pairwise
      (fun x y => (p.normalized anchors).indexOf x < (p.normalized anchors).indexOf y) ∧
    (p.fetchLinks parse anchors).InternalURLs.Pairwise
      (fun x y => (p.normalized anchors).indexOf x < (p.normalized anchors).indexOf y) ∧
    (p.fetchLinks parse anchors).AllURLs.Nodup ∧
    (p.fetchLinks parse anchors).InternalURLs.Nodup := by
  obtain ⟨hall, hint, _, _⟩ := Page.fetchLinks_lists parse p anchors
  have counts : ∀ (l : List String) (x : String),
      (firstOccurrences l).count x = if x ∈ l then 1 else 0 := by
    intro l x
    by_cases hx : x ∈ l
    · rw [if_pos hx]
      exact List.count_eq_one_of_mem (nodup_firstOccurrences l)
        ((mem_firstOccurrences l x).2 hx)
    · rw [if_neg hx]
      exact List.count_eq_zero.2 (fun h => hx ((mem_firstOccurrences l x).1 h))
  refine ⟨hall, hint, ?_, ?_, ?_, ?_, ?_, ?_⟩
  · intro x
    rw [hall]
    exact counts _ x
  · intro x
    rw [hint, counts]
    simp [List.mem_filter]
  · rw [hall]
    exact pairwise_firstOccurrences _
  · rw [hint, firstOccurrences_filter]
    exact (pairwise_firstOccurrences _).filter _
  · rw [hall]
    exact nodup_firstOccurrences _
  · rw [hint]
    exact nodup_firstOccurrences _

/-- C17, as amended: every element of `InternalURLs` is a normalized `href`
of the document whose parsed host equals the parsed host of the parent URL,
both parses succeeding, and a normalized `href` is in `InternalURLs` exactly
when that is so. (The parent URL need not be a string prefix of it.) -/
theorem internal_links_same_host (parse : String → Except String String) (p : Page)
    (anchors : List (Option String)) (x : String) :
    x ∈ (p.fetchLinks parse anchors).InternalURLs ↔
      x ∈ p.normalized anchors ∧
      ∃ host, parse p.ParentURL = .ok host ∧ parse x = .ok host := by
  obtain ⟨_, hint, _, _⟩ := Page.fetchLinks_lists parse p anchors
  rw [hint, mem_firstOccurrences, List.mem_filter, Page.internal_iff]

/-- Counterexample to C17 as stated: a link to the same host over `http` is an
internal URL of a page of `https://example.com`, which is not a prefix of it. -/
theorem internal_links_same_host_counterexample :
    "http://example.com/help" ∈
      (NewPage simpleHost "https://example.com" "https://example.com/privacy"
        exampleAnchors).InternalURLs ∧
    simpleHost "http://example.com/help" = simpleHost "https://example.com" ∧
    ¬ ∃ rest, "http://example.com/help" = "https://example.com" ++ rest := by
  refine ⟨by decide, rfl, ?_⟩
  rintro ⟨rest, h⟩
  have hd := congrArg (fun t => t.data.take 5) h
  simp only [String.data_append] at hd
  rw [List.take_append_of_le_length (by decide)] at hd
  exact absurd hd (by decide)

/-! ## Claims on `AddEdge` errors and on `NewCrawler` -/

/-- C18: when `startURL` is a node and `endURL` is not, the message of the
error of `AddEdge(startURL, endURL)` is `failed to add edge no node found for `
followed by `endURL`; when `startURL` is not a node, the message is
`failed to add edge, no node found for ` followed by `startURL`, whether or
not `endURL` is a node. -/
theorem addEdge_error_message (g : Graph) (startURL endURL : String) :
    (g.HasNode startURL = true → g.HasNode endURL = false →
      (g.AddEdge startURL endURL).2 = some ("failed to add edge no node found for " ++ endURL)) ∧
    (g.HasNode startURL = false →
      (g.AddEdge startURL endURL).2 =
        some ("failed to add edge, no node found for " ++ startURL)) := by
  unfold Graph.AddEdge Graph.HasNode
  cases mapGet g.nodes startURL with
  | none => simp
  | some sn =>
    cases mapGet g.nodes endURL with
    | none => simp
    | some en => simp

/-- Witness of C18: the graph and the message of `TestAddEdgeError`, and an
edge from a URL that is not a node to one that is. -/
theorem addEdge_error_message_witness :
    ((NewGraph.AddNode "https://example.com").AddEdge "https://example.com"
      "https://example.com/cards").2 =
      some ("failed to add edge no node found for " ++ "https://example.com/cards") ∧
    ((NewGraph.AddNode "https://example.com").AddEdge "https://example.com/cards"
      "https://example.com").2 =
      some ("failed to add edge, no node found for " ++ "https://example.com/cards") ∧
    "failed to add edge no node found for " ++ "https://example.com/cards" =
      "failed to add edge no node found for https://example.com/cards" :=
  ⟨(addEdge_error_message (NewGraph.AddNode "https://example.com") "https://example.com"
      "https://example.com/cards").1 (by decide) (by decide),
    (addEdge_error_message (NewGraph.AddNode "https://example.com") "https://example.com/cards"
      "https://example.com").2 (by decide),
    by decide⟩

theorem NewCrawler_url (url : String) (workers timeout : Int) :
    (NewCrawler url workers timeout).URL =
      if endsWithSlash url = true then dropLastByte url else url := by
  by_cases h : url.data.getLast? = some '/'
  · simp [NewCrawler, endsWithSlash, dropLastByte, h]
  · simp [NewCrawler, endsWithSlash, h]

/-- C19, as amended: `NewCrawler` cuts off one trailing slash of `url`: when
`url` ends with `/` the crawler's URL followed by `/` is `url`, else it is
`url`; it ends with `/` exactly when `url` ends with `//`. `Workers` is the
argument, the graph is the new graph, without any node, and the counters are
the new counters, all zero. -/
theorem newCrawler_one_slash (url : String) (workers timeout : Int) :
    (endsWithSlash url = true → (NewCrawler url workers timeout).URL ++ "/" = url) ∧
    (endsWithSlash url = false → (NewCrawler url workers timeout).URL = url) ∧
    (endsWithSlash (NewCrawler url workers timeout).URL = true ↔ ∃ pre, url = pre ++ "//") ∧
    (NewCrawler url workers timeout).Workers = workers ∧
    (NewCrawler url workers timeout).Graph = NewGraph ∧
    (∀ u, (NewCrawler url workers timeout).Graph.HasNode u = false) ∧
    (NewCrawler url workers timeout).Stats = NewStats ∧
    (NewCrawler url workers timeout).Stats.Total = 0 ∧
    (NewCrawler url workers timeout).Stats.Pending = 0 ∧
    (NewCrawler url workers timeout).Stats.Completed = 0 ∧
    (NewCrawler url workers timeout).Stats.Failures = 0 := by
  have hurl := NewCrawler_url url workers timeout
  refine ⟨?_, ?_, ?_, rfl, rfl, fun u => Graph.hasNode_new u, rfl, rfl, rfl, rfl, rfl⟩
  · intro h
    rw [hurl, if_pos h]
    exact dropLastByte_append_self url h
  · intro h
    rw [hurl, h]
    simp
  · rw [hurl]
    by_cases h : endsWithSlash url = true
    · rw [if_pos h]
      exact endsWithSlash_dropLastByte url h
    · rw [if_neg h]
      have hf : endsWithSlash url = false := by simpa using h
      constructor
      · intro h1
        rw [hf] at h1
        exact absurd h1 Bool.false_ne_true
      · intro h1
        exact absurd h1 (not_endsWithSlash_of_double url hf)

/-- Witness of C19: the slash of `https://example.com/` is cut off, and
`https://example.com` is kept as it is. -/
theorem newCrawler_one_slash_witness :
    (NewCrawler "https://example.com/" 10 20).URL ++ "/" = "https://example.com/" ∧
    (NewCrawler "https://example.com" 10 20).URL = "https://example.com" :=
  ⟨(newCrawler_one_slash "https://example.com/" 10 20).1 (by decide),
    (newCrawler_one_slash "https://example.com" 10 20).2.1 (by decide)⟩

/-- Counterexample to C19 as stated: for the argument `https://example.com//`
the crawler's URL ends with `/`. -/
theorem newCrawler_one_slash_counterexample :
    (NewCrawler "https://example.com//" 10 20).URL = "https://example.com/" ∧
    endsWithSlash (NewCrawler "https://example.com//" 10 20).URL = true := by
  decide

/-! ## Lemmas on the edges that the coordinator adds -/

theorem Graph.adjacent_addNode (g : Graph) (u x : String) :
    (g.AddNode u).adjacent x = g.adjacent x := by
  unfold Graph.AddNode
  split <;> rfl

/-- With the page a node, the `AddEdge` call for one link succeeds and appends
the link to the adjacency list of the page, and to no other. -/
theorem Run.link_edges (pageURL : String) (r : Run) (url : String) (h : r.Inv)
    (hp : r.c.Graph.HasNode pageURL = true) :
    r.linkError pageURL url = none ∧
    (r.link pageURL url).c.Graph.adjacent pageURL = r.c.Graph.adjacent pageURL ++ [url] ∧
    (∀ u, u ≠ pageURL → (r.link pageURL url).c.Graph.adjacent u = r.c.Graph.adjacent u) ∧
    (r.link pageURL url).c.Graph.HasNode pageURL = true := by
  by_cases hv : r.c.Graph.HasNode url = true
  · have hl : (r.link pageURL url).c.Graph = (r.c.Graph.AddEdge pageURL url).1 := by
      simp [Run.link, hv]
    have he : r.linkError pageURL url = (r.c.Graph.AddEdge pageURL url).2 := by
      simp [Run.linkError, hv]
    rw [hl, he]
    exact ⟨(Graph.addEdge_error_none_iff _ _ _).2 ⟨hp, hv⟩,
      Graph.adjacent_addEdge_self _ h.sound _ _ hp hv,
      fun u hu => Graph.adjacent_addEdge_other _ _ _ u hu h.sound,
      by rw [Graph.hasNode_addEdge]; exact hp⟩
  · have hf : r.c.Graph.HasNode url = false := by simpa using hv
    have hl : (r.link pageURL url).c.Graph =
        ((r.c.Graph.AddNode url).AddEdge pageURL url).1 := by
      simp [Run.link, hf]
    have he : r.linkError pageURL url = ((r.c.Graph.AddNode url).AddEdge pageURL url).2 := by
      simp [Run.linkError, hf]
    have hs := Graph.sound_addNode _ url h.sound
    have hp1 : (r.c.Graph.AddNode url).HasNode pageURL = true := by
      rw [Graph.hasNode_addNode, hp]; rfl
    have hu1 : (r.c.Graph.AddNode url).HasNode url = true := by
      rw [Graph.hasNode_addNode]; simp
    rw [hl, he]
    refine ⟨(Graph.addEdge_error_none_iff _ _ _).2 ⟨hp1, hu1⟩, ?_, ?_, ?_⟩
    · rw [Graph.adjacent_addEdge_self _ hs _ _ hp1 hu1, Graph.adjacent_addNode]
    · intro u hu
      rw [Graph.adjacent_addEdge_other _ _ _ u hu hs, Graph.adjacent_addNode]
    · rw [Graph.hasNode_addEdge]; exact hp1

/-- With the page a node, every `AddEdge` call for its links succeeds, and the
links are appended, in order, to the adjacency list of the page only. -/
theorem Run.links_edges (pageURL : String) (links : List String) (r : Run) (h : r.Inv)
    (hp : r.c.Graph.HasNode pageURL = true) :
    (∀ e ∈ Run.linkErrors pageURL r links, e = none) ∧
    (links.foldl (Run.link pageURL) r).c.Graph.adjacent pageURL =
      r.c.Graph.adjacent pageURL ++ links ∧
    (∀ u, u ≠ pageURL →
      (links.foldl (Run.link pageURL) r).c.Graph.adjacent u = r.c.Graph.adjacent u) ∧
    (links.foldl (Run.link pageURL) r).c.Graph.HasNode pageURL = true := by
  induction links generalizing r with
  | nil => simp [Run.linkErrors, hp]
  | cons url rest ih =>
    obtain ⟨e1, a1, o1, n1⟩ := Run.link_edges pageURL r url h hp
    obtain ⟨e2, a2, o2, n2⟩ := ih (r.link pageURL url) (Run.link_spec pageURL r url h).1 n1
    simp only [List.foldl_cons]
    refine ⟨?_, ?_, ?_, n2⟩
    · intro e he
      simp only [Run.linkErrors, List.mem_cons] at he
      rcases he with he | he
      · rw [he]; exact e1
      · exact e2 e he
    · rw [a2, a1]
      simp
    · intro u hu
      rw [o2 u hu, o1 u hu]

/-- The coordinator only appends to the URL channel. -/
theorem Run.links_channel (pageURL : String) (links : List String) (r : Run) :
    ∃ new, (links.foldl (Run.link pageURL) r).urlChannel = r.urlChannel ++ new := by
  induction links generalizing r with
  | nil => exact ⟨[], by simp⟩
  | cons url rest ih =>
    obtain ⟨new, hnew⟩ := ih (r.link pageURL url)
    simp only [List.foldl_cons]
    by_cases hv : r.c.Graph.HasNode url = true
    · have hc : (r.link pageURL url).urlChannel = r.urlChannel := by
        simp [Run.link, hv]
      exact ⟨new, by rw [hnew, hc]⟩
    · have hf : r.c.Graph.HasNode url = false := by simpa using hv
      have hc : (r.link pageURL url).urlChannel = r.urlChannel ++ [url] := by
        simp [Run.link, hf]
      exact ⟨url :: new, by rw [hnew, hc]; simp⟩

/-- A node stays a node when the coordinator handles a page. -/
theorem Run.listenForPages_hasNode (r : Run) (p : Page) (h : r.Inv) (u : String)
    (hu : r.c.Graph.HasNode u = true) : (r.listenForPages p).c.Graph.HasNode u = true := by
  obtain ⟨i1, _, _, _, _, _, ch1⟩ := Run.listenForPages_spec r p h
  rw [Graph.hasNode_iff_mem, i1.keys, ch1]
  left
  rw [← h.keys, ← Graph.hasNode_iff_mem]
  exact hu

theorem length_eq_count_add (new : List String) (v : String) :
    new.length = new.count v + (new.filter (fun x => decide (x ≠ v))).length := by
  induction new with
  | nil => simp
  | cons a rest ih =>
    by_cases h : a = v
    · subst h
      simp [List.filter_cons] at ih ⊢
      omega
    · have h2 : ¬ (a == v) = true := by simpa using h
      simp [List.filter_cons, h, List.count_cons, h2] at ih ⊢
      omega

/-! ## Claims on shared links and on edges -/

/-- C11: in any state of a crawl, when two pages whose URLs are nodes both
have the internal link `v`, which is not a node, then after the coordinator has
handled the first and then the second page, `v` has been sent exactly once, the
URLs newly sent hold `v` once and `Total()` has grown by one for `v` and by one
for each other new URL, and both edges to `v` are in the graph. And in any
state a link to a URL that is a node leaves the node map, the counters, the
wait group and the URL channel as they are; it appends the link to the
adjacency list of the page when the page is a node, and changes no other
adjacency list. -/
theorem shared_link_once (url : String) (workers timeout now : Int) (evs : List Event) :
    (∀ (P1 P2 : Page) (v : String),
      (crawl url workers timeout now evs).c.Graph.HasNode P1.URL = true →
      (crawl url workers timeout now evs).c.Graph.HasNode P2.URL = true →
      v ∈ P1.InternalURLs → v ∈ P2.InternalURLs →
      (crawl url workers timeout now evs).c.Graph.HasNode v = false →
      (crawl url workers timeout now evs).urlChannel.count v = 0 ∧
      (((crawl url workers timeout now evs).listenForPages P1).listenForPages
        P2).urlChannel.count v = 1 ∧
      (∃ new,
        (((crawl url workers timeout now evs).listenForPages P1).listenForPages P2).urlChannel =
          (crawl url workers timeout now evs).urlChannel ++ new ∧
        new.count v = 1 ∧
        (((crawl url workers timeout now evs).listenForPages P1).listenForPages
            P2).c.Stats.Total =
          (crawl url workers timeout now evs).c.Stats.Total + 1
            + (new.filter (fun x => decide (x ≠ v))).length) ∧
      v ∈ (((crawl url workers timeout now evs).listenForPages P1).listenForPages
        P2).c.Graph.adjacent P1.URL ∧
      v ∈ (((crawl url workers timeout now evs).listenForPages P1).listenForPages
        P2).c.Graph.adjacent P2.URL) ∧
    (∀ (pageURL link : String),
      (crawl url workers timeout now evs).c.Graph.HasNode link = true →
      ((crawl url workers timeout now evs).link pageURL link).c.Graph.nodes =
        (crawl url workers timeout now evs).c.Graph.nodes ∧
      ((crawl url workers timeout now evs).link pageURL link).c.Stats =
        (crawl url workers timeout now evs).c.Stats ∧
      ((crawl url workers timeout now evs).link pageURL link).c.wg =
        (crawl url workers timeout now evs).c.wg ∧
      ((crawl url workers timeout now evs).link pageURL link).urlChannel =
        (crawl url workers timeout now evs).urlChannel ∧
      (∀ u, u ≠ pageURL →
        ((crawl url workers timeout now evs).link pageURL link).c.Graph.adjacent u =
          (crawl url workers timeout now evs).c.Graph.adjacent u) ∧
      ((crawl url workers timeout now evs).c.Graph.HasNode pageURL = true →
        ((crawl url workers timeout now evs).link pageURL link).c.Graph.adjacent pageURL =
          (crawl url workers timeout now evs).c.Graph.adjacent pageURL ++ [link])) := by
  obtain ⟨inv, _, _⟩ := crawl_inv url workers timeout now evs
  generalize crawl url workers timeout now evs = r at inv ⊢
  constructor
  · intro P1 P2 v h1 h2 hv1 hv2 hnew
    obtain ⟨i1, _, _, _, _, _, ch1⟩ := Run.listenForPages_spec r P1 inv
    obtain ⟨i2, _, _, _, _, _, ch2⟩ := Run.listenForPages_spec (r.listenForPages P1) P2 i1
    have hnot : v ∉ r.urlChannel := by
      rw [← inv.keys, ← Graph.hasNode_iff_mem, hnew]
      exact Bool.false_ne_true
    have hzero : r.urlChannel.count v = 0 := List.count_eq_zero.2 hnot
    have hmem : v ∈ ((r.listenForPages P1).listenForPages P2).urlChannel := by
      rw [ch2]
      exact Or.inr hv2
    have hone : ((r.listenForPages P1).listenForPages P2).urlChannel.count v = 1 :=
      List.count_eq_one_of_mem i2.nodup hmem
    obtain ⟨new1, hnew1⟩ := Run.links_channel P1.URL P1.InternalURLs r
    obtain ⟨new2, hnew2⟩ := Run.links_channel P2.URL P2.InternalURLs (r.listenForPages P1)
    have hc1 : (r.listenForPages P1).urlChannel = r.urlChannel ++ new1 := hnew1
    have hc2 : ((r.listenForPages P1).listenForPages P2).urlChannel =
        r.urlChannel ++ (new1 ++ new2) := by
      have : ((r.listenForPages P1).listenForPages P2).urlChannel =
          (r.listenForPages P1).urlChannel ++ new2 := hnew2
      rw [this, hc1, List.append_assoc]
    have hcount : (new1 ++ new2).count v = 1 := by
      have := hone
      rw [hc2, List.count_append, hzero] at this
      omega
    have h1' : (r.listenForPages P1).c.Graph.HasNode P1.URL = true :=
      Run.listenForPages_hasNode r P1 inv _ h1
    have h2' : (r.listenForPages P1).c.Graph.HasNode P2.URL = true :=
      Run.listenForPages_hasNode r P1 inv _ h2
    obtain ⟨_, a1, _, _⟩ := Run.links_edges P1.URL P1.InternalURLs r inv h1
    obtain ⟨_, a2, o2, _⟩ :=
      Run.links_edges P2.URL P2.InternalURLs (r.listenForPages P1) i1 h2'
    have adj1 : (r.listenForPages P1).c.Graph.adjacent P1.URL =
        r.c.Graph.adjacent P1.URL ++ P1.InternalURLs := a1
    have adj2 : ((r.listenForPages P1).listenForPages P2).c.Graph.adjacent P2.URL =
        (r.listenForPages P1).c.Graph.adjacent P2.URL ++ P2.InternalURLs := a2
    have other : ∀ u, u ≠ P2.URL →
        ((r.listenForPages P1).listenForPages P2).c.Graph.adjacent u =
          (r.listenForPages P1).c.Graph.adjacent u := o2
    refine ⟨hzero, hone, ⟨new1 ++ new2, hc2, hcount, ?_⟩, ?_, ?_⟩
    · have ht2 := i2.total
      have ht0 := inv.total
      have hlen := length_eq_count_add (new1 ++ new2) v
      show ((r.listenForPages P1).listenForPages P2).c.Stats.total = r.c.Stats.total + 1 + _
      rw [ht2, ht0, hc2, List.length_append, hlen, hcount]
      push_cast
      ring
    · by_cases hsame : P1.URL = P2.URL
      · rw [hsame, adj2, ← hsame, adj1]
        simp [hv1]
      · rw [other _ hsame, adj1]
        simp [hv1]
    · rw [adj2]
      simp [hv2]
  · intro pageURL link hnode
    have hl : r.link pageURL link =
        { r with c := { r.c with Graph := (r.c.Graph.AddEdge pageURL link).1 } } := by
      simp [Run.link, hnode]
    rw [hl]
    refine ⟨Graph.nodes_addEdge _ _ _, rfl, rfl, rfl, ?_, ?_⟩
    · intro u hu
      exact Graph.adjacent_addEdge_other _ _ _ u hu inv.sound
    · intro hp
      exact Graph.adjacent_addEdge_self _ inv.sound _ _ hp hnode

/-- Witness of C11: after the seed page, the cards page and the about page are
nodes and both link to `/loans`, which is not a node yet. -/
theorem shared_link_once_witness :
    (((crawl "https://example.com" 10 20 1 [Event.page homePage]).listenForPages
      cardsPage).listenForPages aboutPage).urlChannel.count "https://example.com/loans" = 1 ∧
    "https://example.com/loans" ∈
      (((crawl "https://example.com" 10 20 1 [Event.page homePage]).listenForPages
        cardsPage).listenForPages aboutPage).c.Graph.adjacent "https://example.com/cards" ∧
    "https://example.com/loans" ∈
      (((crawl "https://example.com" 10 20 1 [Event.page homePage]).listenForPages
        cardsPage).listenForPages aboutPage).c.Graph.adjacent "https://example.com/about" := by
  have key := (shared_link_once "https://example.com" 10 20 1 [Event.page homePage]).1
    cardsPage aboutPage "https://example.com/loans"
    (by decide) (by decide) (by decide) (by decide) (by decide)
  exact ⟨key.2.1, key.2.2.2⟩

/-- One delivery: every `AddEdge` call succeeds, and afterwards the adjacency
list of every resolved URL is the list of internal links of its page, that of
any other URL being empty. -/
theorem Pipeline.deliver_edges (site : Site) (seed : String) (s s1 : Pipeline) (u : String)
    (h : s.Inv site seed)
    (he : ∀ x, s.run.c.Graph.adjacent x = if x ∈ s.resolved then site.links x else [])
    (hd : s.deliver site u = some s1) :
    (∀ e ∈ Run.linkErrors u s.run (site.links u), e = none) ∧
    (∀ x, s1.run.c.Graph.adjacent x = if x ∈ s1.resolved then site.links x else []) := by
  unfold Pipeline.deliver at hd
  by_cases hg : 0 < s.run.c.Workers ∧ s.resolved.count u < s.run.urlChannel.count u
  · rw [if_pos hg] at hd
    have hle : s.run.urlChannel.count u ≤ 1 := List.nodup_iff_count_le_one.1 h.run.nodup u
    have hcnt : s.resolved.count u = 0 := by omega
    have hnew : u ∉ s.resolved := List.count_eq_zero.1 hcnt
    have hsent : u ∈ s.run.urlChannel := by
      apply List.count_pos_iff.1
      omega
    have hnode : s.run.c.Graph.HasNode u = true := by
      rw [Graph.hasNode_iff_mem, h.run.keys]
      exact hsent
    have hempty : s.run.c.Graph.adjacent u = [] := by
      rw [he u, if_neg hnew]
    cases hsite : site u with
    | failure err =>
      rw [hsite] at hd
      simp only [Option.some.injEq] at hd
      subst hd
      have hlinks : site.links u = [] := by simp [Site.links, hsite]
      refine ⟨by rw [hlinks]; simp [Run.linkErrors], ?_⟩
      intro x
      show s.run.c.Graph.adjacent x = if x ∈ s.resolved ++ [u] then site.links x else []
      rw [he x]
      by_cases hx : x = u
      · subst hx
        simp [hnew, hlinks]
      · simp [hx]
    | page allURLs internalURLs =>
      rw [hsite] at hd
      simp only [Option.some.injEq] at hd
      subst hd
      have hlinks : site.links u = internalURLs := by simp [Site.links, hsite]
      obtain ⟨e1, a1, o1, _⟩ := Run.links_edges u internalURLs s.run h.run hnode
      refine ⟨by rw [hlinks]; exact e1, ?_⟩
      intro x
      show (internalURLs.foldl (Run.link u) s.run).c.Graph.adjacent x =
        if x ∈ s.resolved ++ [u] then site.links x else []
      by_cases hx : x = u
      · subst hx
        rw [a1, hempty]
        simp [hlinks]
      · rw [o1 x hx, he x]
        simp [hx]
  · rw [if_neg hg] at hd
    exact absurd hd (by simp)

/-- The adjacency lists along a schedule. -/
theorem Pipeline.schedule_edges (site : Site) (seed : String) (us : List String)
    (s s1 : Pipeline) (h : s.Inv site seed)
    (he : ∀ x, s.run.c.Graph.adjacent x = if x ∈ s.resolved then site.links x else [])
    (hs : Pipeline.schedule site s us = some s1) :
    ∀ x, s1.run.c.Graph.adjacent x = if x ∈ s1.resolved then site.links x else [] := by
  induction us generalizing s with
  | nil =>
    simp only [Pipeline.schedule, Option.some.injEq] at hs
    subst hs
    exact he
  | cons u rest ih =>
    unfold Pipeline.schedule at hs
    cases hd : s.deliver site u with
    | none => simp [hd] at hs
    | some s2 =>
      rw [hd] at hs
      obtain ⟨i2, _, _⟩ := Pipeline.deliver_spec site seed s s2 u h hd
      exact ih s2 i2 (Pipeline.deliver_edges site seed s s2 u h he hd).2 hs

theorem Crawler.start_edges (url : String) (workers timeout now : Int) (x : String) :
    ((NewCrawler url workers timeout).start now).run.c.Graph.adjacent x = [] := by
  show (NewGraph.AddNode (NewCrawler url workers timeout).URL).adjacent x = []
  rw [Graph.adjacent_addNode]
  rfl

/-- C20: in a crawl of a site started by `Crawl`, in every state that the
pipeline reaches, every `AddEdge` call that the coordinator makes for the next
page succeeds; and when the crawl finishes, the adjacency list of every node
whose fetch succeeded is the list of internal links of its page, in order,
while a node whose fetch failed, and any URL that is not a node, has no
outgoing edge. -/
theorem edges_match_links (site : Site) (url : String) (workers timeout now : Int)
    (schedule : List String) (s : Pipeline)
    (hrun : Pipeline.schedule site ((NewCrawler url workers timeout).start now) schedule
      = some s) :
    (∀ u s1, s.deliver site u = some s1 →
      ∀ e ∈ Run.linkErrors u s.run (site.links u), e = none) ∧
    (s.finished = true →
      (∀ u, s.run.c.Graph.HasNode u = true → site.ok u = true →
        s.run.c.Graph.adjacent u = site.links u) ∧
      (∀ u, s.run.c.Graph.HasNode u = true → site.ok u = false →
        s.run.c.Graph.adjacent u = []) ∧
      (∀ u, s.run.c.Graph.HasNode u = false → s.run.c.Graph.adjacent u = [])) := by
  have h0 := Crawler.start_inv site url workers timeout now
  have e0 : ∀ x, ((NewCrawler url workers timeout).start now).run.c.Graph.adjacent x =
      if x ∈ ((NewCrawler url workers timeout).start now).resolved then site.links x
      else [] := by
    intro x
    rw [Crawler.start_edges]
    simp [Crawler.start]
  obtain ⟨h, _, _⟩ := Pipeline.schedule_spec site _ schedule _ s h0 hrun
  have he := Pipeline.schedule_edges site _ schedule _ s h0 e0 hrun
  refine ⟨fun u s1 hd => (Pipeline.deliver_edges site _ s s1 u h he hd).1, ?_⟩
  intro hfin
  have perm := h.resolved_perm hfin
  have hres : ∀ u, u ∈ s.resolved ↔ s.run.c.Graph.HasNode u = true := by
    intro u
    rw [Graph.hasNode_iff_mem, h.run.keys]
    exact perm.mem_iff
  refine ⟨?_, ?_, ?_⟩
  · intro u hu _
    rw [he u, if_pos ((hres u).2 hu)]
  · intro u hu hfail
    rw [he u, if_pos ((hres u).2 hu)]
    unfold Site.ok at hfail
    unfold Site.links
    cases hsite : site u with
    | failure err => rfl
    | page a b => simp [hsite] at hfail
  · intro u hu
    have hnot : u ∉ s.resolved := by
      intro hmem
      rw [(hres u).1 hmem] at hu
      exact Bool.noConfusion hu
    rw [he u, if_neg hnot]

/-- Witness of C20 on the three-page mock site: when the crawl has finished,
the adjacency list of the loans page is the list of its internal links; and
the two `AddEdge` calls for the seed page succeed. -/
theorem edges_match_links_witness :
    mockCrawl.map (fun s => s.finished) = some true ∧
    mockCrawl.map (fun s => s.run.c.Graph.adjacent "https://example.com/loans") =
      some (mockSite.links "https://example.com/loans") ∧
    mockSite.links "https://example.com/loans" =
      ["https://example.com", "https://example.com/shared-tabs"] ∧
    Run.linkErrors "https://example.com"
      ((NewCrawler "https://example.com" 10 20).start 1).run
      (mockSite.links "https://example.com") = [none, none] := by
  have hfinished : mockCrawl.map (fun s => s.finished) = some true := by decide
  have hnode : mockCrawl.map (fun s => s.run.c.Graph.HasNode "https://example.com/loans")
      = some true := by decide
  have hsome : ∃ s, mockCrawl = some s := by
    cases h : mockCrawl with
    | none => simp [h] at hfinished
    | some s => exact ⟨s, rfl⟩
  obtain ⟨s, hs⟩ := hsome
  refine ⟨hfinished, ?_, by decide, by decide⟩
  rw [hs] at hfinished hnode ⊢
  simp only [Option.map_some', Option.some.injEq] at hfinished hnode ⊢
  exact ((edges_match_links mockSite "https://example.com" 10 20 1 _ s hs).2 hfinished).1
    "https://example.com/loans" hnode (by decide)

/-! ## Claims on a failed seed -/

/-- The only run that finishes when the fetch of the seed fails: the seed goes
through the pipeline, and nothing else does. -/
theorem Pipeline.failed_seed_run (site : Site) (url : String) (workers timeout now : Int)
    (err : String) (hfail : site (NewCrawler url workers timeout).URL = Response.failure err)
    (schedule : List String) (s : Pipeline)
    (hrun : Pipeline.schedule site ((NewCrawler url workers timeout).start now) schedule
      = some s)
    (hfin : s.finished = true) :
    s.run = ((NewCrawler url workers timeout).Crawl now).listenForErrors
      ("failed to fetch " ++ (NewCrawler url workers timeout).URL ++ ": " ++ err) := by
  obtain ⟨i0, ch0, _, _, _, _⟩ := Crawler.seed_inv url workers timeout now
  cases schedule with
  | nil =>
    simp only [Pipeline.schedule, Option.some.injEq] at hrun
    subst hrun
    have hwg : ((NewCrawler url workers timeout).start now).run.c.wg = 1 := rfl
    simp [Pipeline.finished, hwg] at hfin
  | cons u rest =>
    unfold Pipeline.schedule at hrun
    cases hd : ((NewCrawler url workers timeout).start now).deliver site u with
    | none => simp [hd] at hrun
    | some s1 =>
      rw [hd] at hrun
      unfold Pipeline.deliver at hd
      by_cases hg : 0 < ((NewCrawler url workers timeout).start now).run.c.Workers ∧
          ((NewCrawler url workers timeout).start now).resolved.count u <
            ((NewCrawler url workers timeout).start now).run.urlChannel.count u
      · rw [if_pos hg] at hd
        have hch : ((NewCrawler url workers timeout).start now).run.urlChannel =
            [(NewCrawler url workers timeout).URL] := ch0
        have hu : u = (NewCrawler url workers timeout).URL := by
          have hpos : 0 < ((NewCrawler url workers timeout).start now).run.urlChannel.count u := by
            omega
          have hmem := List.count_pos_iff.1 hpos
          rw [hch] at hmem
          exact List.mem_singleton.1 hmem
        subst hu
        rw [hfail] at hd
        simp only [Option.some.injEq] at hd
        subst hd
        cases rest with
        | nil =>
          simp only [Pipeline.schedule, Option.some.injEq] at hrun
          subst hrun
          rfl
        | cons u2 rest2 =>
          unfold Pipeline.schedule at hrun
          have hnone : Pipeline.deliver site
              { run := ((NewCrawler url workers timeout).start now).run.listenForErrors
                  ("failed to fetch " ++ (NewCrawler url workers timeout).URL ++ ": " ++ err)
                resolved := ((NewCrawler url workers timeout).start now).resolved
                  ++ [(NewCrawler url workers timeout).URL] } u2 = none := by
            unfold Pipeline.deliver
            rw [if_neg]
            rintro ⟨_, hlt⟩
            have hc2 : (((NewCrawler url workers timeout).start now).run.listenForErrors
                ("failed to fetch " ++ (NewCrawler url workers timeout).URL ++ ": "
                  ++ err)).urlChannel = [(NewCrawler url workers timeout).URL] := ch0
            have hr2 : ((NewCrawler url workers timeout).start now).resolved
                ++ [(NewCrawler url workers timeout).URL] =
                [(NewCrawler url workers timeout).URL] := rfl
            simp only [hc2, hr2] at hlt
            exact Nat.lt_irrefl _ hlt
          rw [hnone] at hrun
          simp at hrun
      · rw [if_neg hg] at hd
        exact absurd hd (by simp)

/-- C12: when the fetch of the seed returns an error, then whenever `Crawl`
finishes, `Failures() == 1`, `Completed() == 0`, `Pending() == 0`,
`Total() == 1`, the seed is the only node of the graph, and the log output
contains `failed to fetch ` followed by the seed URL. With at least one worker
`Crawl` does finish, once the seed has gone through the pipeline. -/
theorem failed_seed (site : Site) (url : String) (workers timeout now : Int) (err : String)
    (hfail : site (NewCrawler url workers timeout).URL = Response.failure err) :
    (∀ (schedule : List String) (s : Pipeline),
      Pipeline.schedule site ((NewCrawler url workers timeout).start now) schedule = some s →
      s.finished = true →
        s.run.c.Stats.Failures = 1 ∧ s.run.c.Stats.Completed = 0 ∧
        s.run.c.Stats.Pending = 0 ∧ s.run.c.Stats.Total = 1 ∧
        (∀ u, s.run.c.Graph.HasNode u = true ↔ u = (NewCrawler url workers timeout).URL) ∧
        ∃ before after, s.run.c.output =
          before ++ ("failed to fetch " ++ (NewCrawler url workers timeout).URL) ++ after) ∧
    (0 < workers →
      ∃ s, Pipeline.schedule site ((NewCrawler url workers timeout).start now)
          [(NewCrawler url workers timeout).URL] = some s ∧ s.finished = true) := by
  obtain ⟨i0, ch0, _, _, c0, f0⟩ := Crawler.seed_inv url workers timeout now
  obtain ⟨i1, _, _, c1, f1, ch1, g1⟩ := Run.listenForErrors_spec
    ((NewCrawler url workers timeout).Crawl now)
    ("failed to fetch " ++ (NewCrawler url workers timeout).URL ++ ": " ++ err) i0
  have hcompleted := c1.trans c0
  have hfailures : (((NewCrawler url workers timeout).Crawl now).listenForErrors
      ("failed to fetch " ++ (NewCrawler url workers timeout).URL ++ ": "
        ++ err)).c.Stats.failures = 1 := by
    rw [f1, f0]; rfl
  have hchannel := ch1.trans ch0
  have htotal : (((NewCrawler url workers timeout).Crawl now).listenForErrors
      ("failed to fetch " ++ (NewCrawler url workers timeout).URL ++ ": "
        ++ err)).c.Stats.total = 1 := by
    rw [i1.total, hchannel]; rfl
  have hpending : (((NewCrawler url workers timeout).Crawl now).listenForErrors
      ("failed to fetch " ++ (NewCrawler url workers timeout).URL ++ ": "
        ++ err)).c.Stats.pending = 0 := by
    rw [i1.pending, htotal, hcompleted, hfailures]; rfl
  constructor
  · intro schedule s hrun hfin
    have hs := Pipeline.failed_seed_run site url workers timeout now err hfail schedule s
      hrun hfin
    rw [hs]
    refine ⟨hfailures, hcompleted, hpending, htotal, ?_, ?_⟩
    · intro u
      rw [Graph.hasNode_iff_mem, i1.keys, hchannel, List.mem_singleton]
    · refine ⟨"🥞 ", ": " ++ err ++ "\n", ?_⟩
      show String.join ([] ++ ["🥞 " ++
        ("failed to fetch " ++ (NewCrawler url workers timeout).URL ++ ": " ++ err) ++ "\n"]) = _
      simp [String.join, String.append_assoc]
  · intro hw
    have hg : 0 < ((NewCrawler url workers timeout).start now).run.c.Workers ∧
        ((NewCrawler url workers timeout).start now).resolved.count
            (NewCrawler url workers timeout).URL <
          ((NewCrawler url workers timeout).start now).run.urlChannel.count
            (NewCrawler url workers timeout).URL := by
      refine ⟨hw, ?_⟩
      have hch : ((NewCrawler url workers timeout).start now).run.urlChannel =
          [(NewCrawler url workers timeout).URL] := ch0
      have hr : ((NewCrawler url workers timeout).start now).resolved = [] := rfl
      rw [hch, hr]
      simp
    refine ⟨{ run := ((NewCrawler url workers timeout).Crawl now).listenForErrors
                ("failed to fetch " ++ (NewCrawler url workers timeout).URL ++ ": " ++ err)
              resolved := [] ++ [(NewCrawler url workers timeout).URL] }, ?_, ?_⟩
    · simp only [Pipeline.schedule, Pipeline.deliver]
      rw [if_pos hg, hfail]
      rfl
    · have hwg := i1.wg
      simp only [Pipeline.finished, decide_eq_true_eq]
      rw [hwg]
      exact hpending

/-- Witness of C12 on `TestCrawlError`: the seed `https://test.com` is not in
the mock cache; the crawl finishes with one failure and the log names the
URL. -/
theorem failed_seed_witness :
    mockCrawlError.map (fun s => s.finished) = some true ∧
    mockCrawlError.map (fun s => s.run.c.Stats.Failures) = some 1 ∧
    mockCrawlError.map (fun s => s.run.c.Stats.Pending) = some 0 ∧
    mockCrawlError.map (fun s => s.run.c.output) =
      some "🥞 failed to fetch https://test.com: https://test.com not found in mock cache\n" ∧
    (∃ s, mockCrawlError = some s ∧
      ∃ before after, s.run.c.output = before ++ ("failed to fetch " ++ "https://test.com") ++ after)
    := by
  have hfinished : mockCrawlError.map (fun s => s.finished) = some true := by decide
  refine ⟨hfinished, by decide, by decide, by decide, ?_⟩
  have hsome : ∃ s, mockCrawlError = some s := by
    cases h : mockCrawlError with
    | none => simp [h] at hfinished
    | some s => exact ⟨s, rfl⟩
  obtain ⟨s, hs⟩ := hsome
  rw [hs] at hfinished
  simp only [Option.map_some', Option.some.injEq] at hfinished
  exact ⟨s, hs,
    ((failed_seed mockSite "https://test.com" 10 20 1
      ("https://test.com" ++ " not found in mock cache") (by decide)).1 _ s hs hfinished).2.2.2.2.2⟩

/-! ## Claims on a failed `AddEdge`, on the node count and on the two link lists -/

/-- C21: when `AddEdge(startURL, endURL)` returns an error, the graph is
unchanged: the same node map, the same edge map, and so the same nodes and the
same adjacency lists. -/
theorem addEdge_failure_atomic (g : Graph) (startURL endURL : String)
    (h : (g.AddEdge startURL endURL).2 ≠ none) :
    (g.AddEdge startURL endURL).1 = g ∧
    (∀ u, (g.AddEdge startURL endURL).1.HasNode u = g.HasNode u) ∧
    (∀ u, (g.AddEdge startURL endURL).1.adjacent u = g.adjacent u) := by
  have same : (g.AddEdge startURL endURL).1 = g := by
    unfold Graph.AddEdge at h ⊢
    cases hs : mapGet g.nodes startURL with
    | none => rfl
    | some sn =>
      cases he : mapGet g.nodes endURL with
      | none => rfl
      | some en =>
        rw [hs, he] at h
        exact absurd rfl h
  refine ⟨same, fun u => ?_, fun u => ?_⟩
  · rw [same]
  · rw [same]

/-- Witness of C21: the failing call of `TestAddEdgeError`, on a graph that
has an edge already. -/
theorem addEdge_failure_atomic_witness :
    ((NewGraph.run [GraphOp.addNode "https://example.com",
        GraphOp.addEdge "https://example.com" "https://example.com"]).AddEdge
      "https://example.com" "https://example.com/cards").1 =
      NewGraph.run [GraphOp.addNode "https://example.com",
        GraphOp.addEdge "https://example.com" "https://example.com"] ∧
    (NewGraph.run [GraphOp.addNode "https://example.com",
        GraphOp.addEdge "https://example.com" "https://example.com"]).adjacent
      "https://example.com" = ["https://example.com"] :=
  ⟨(addEdge_failure_atomic
      (NewGraph.run [GraphOp.addNode "https://example.com",
        GraphOp.addEdge "https://example.com" "https://example.com"])
      "https://example.com" "https://example.com/cards" (by decide)).1,
    by decide⟩

/-- C22: after `Crawl` has sent the seed and after every page or error that
the listeners handle, `Total()` is the number of nodes of the graph (the node
map has one entry per node), and the nodes of the graph are exactly the URLs
sent to the URL channel so far. -/
theorem total_counts_nodes (url : String) (workers timeout now : Int) (evs : List Event) :
    (crawl url workers timeout now evs).c.Stats.Total =
      (crawl url workers timeout now evs).c.Graph.nodes.length ∧
    (mapKeys (crawl url workers timeout now evs).c.Graph.nodes).Nodup ∧
    (crawl url workers timeout now evs).c.Stats.Total =
      Set.ncard {u | (crawl url workers timeout now evs).c.Graph.HasNode u = true} ∧
    (∀ u, (crawl url workers timeout now evs).c.Graph.HasNode u = true ↔
      u ∈ (crawl url workers timeout now evs).urlChannel) := by
  obtain ⟨inv, _, _⟩ := crawl_inv url workers timeout now evs
  generalize crawl url workers timeout now evs = r at inv ⊢
  have hlen : r.c.Graph.nodes.length = r.urlChannel.length := by
    rw [← inv.keys]
    simp [mapKeys]
  have hnodup : (mapKeys r.c.Graph.nodes).Nodup := by
    rw [inv.keys]
    exact inv.nodup
  have hset : {u | r.c.Graph.HasNode u = true} =
      ((mapKeys r.c.Graph.nodes).toFinset : Set String) := by
    ext u
    simp [Graph.hasNode_iff_mem]
  refine ⟨?_, hnodup, ?_, ?_⟩
  · show r.c.Stats.total = _
    rw [inv.total, hlen]
  · show r.c.Stats.total = _
    rw [hset, Set.ncard_coe_Finset, List.toFinset_card_of_nodup hnodup, inv.total, inv.keys]
  · intro u
    rw [Graph.hasNode_iff_mem, inv.keys]

/-- C23: the list `InternalURLs` that `fetchLinks` builds is `AllURLs` with the
URLs that are not classified as internal left out: it is a subsequence of
`AllURLs`, every internal URL is in `AllURLs`, and it is not longer. -/
theorem internal_sublist_all (parse : String → Except String String) (p : Page)
    (anchors : List (Option String)) :
    (p.fetchLinks parse anchors).InternalURLs =
      (p.fetchLinks parse anchors).AllURLs.filter (p.internal parse) ∧
    (p.fetchLinks parse anchors).InternalURLs.Sublist (p.fetchLinks parse anchors).AllURLs ∧
    (∀ x, x ∈ (p.fetchLinks parse anchors).InternalURLs →
      x ∈ (p.fetchLinks parse anchors).AllURLs) ∧
    (p.fetchLinks parse anchors).InternalURLs.length ≤
      (p.fetchLinks parse anchors).AllURLs.length := by
  obtain ⟨hall, hint, _, _⟩ := Page.fetchLinks_lists parse p anchors
  have heq : (p.fetchLinks parse anchors).InternalURLs =
      (p.fetchLinks parse anchors).AllURLs.filter (p.internal parse) := by
    rw [hint, hall, firstOccurrences_filter]
  have hsub : (p.fetchLinks parse anchors).InternalURLs.Sublist
      (p.fetchLinks parse anchors).AllURLs := by
    rw [heq]
    exact List.filter_sublist _
  exact ⟨heq, hsub, fun x hx => hsub.subset hx, hsub.length_le⟩

/-- Witness of C23 on a page with four distinct links, three of them
internal. -/
theorem internal_sublist_all_witness :
    (NewPage simpleHost "https://example.com" "https://example.com/privacy"
      exampleAnchors).AllURLs =
      ["https://example.com/loans", "https://example.com/cards", "https://other.org/about",
        "http://example.com/help"] ∧
    (NewPage simpleHost "https://example.com" "https://example.com/privacy"
      exampleAnchors).InternalURLs =
      ["https://example.com/loans", "https://example.com/cards", "http://example.com/help"] ∧
    "https://example.com/cards" ∈
      (NewPage simpleHost "https://example.com" "https://example.com/privacy"
        exampleAnchors).AllURLs :=
  ⟨by decide, by decide,
    (internal_sublist_all simpleHost
      { ParentURL := "https://example.com", URL := "https://example.com/privacy"
        AllURLs := [], InternalURLs := [] } exampleAnchors).2.2.1
      "https://example.com/cards" (by decide)⟩

end Crwl
